import Mathlib

/-!
Verification of the luthor lexical-scanning toolkit.

The tokenizer of src/tokenizer.rs is modelled shallowly: the remaining input
(the `Chars` iterator) is a list of Unicode scalar values, the in-progress
lexeme is the list of characters accumulated by `advance`, and the committed
tokens are a list.  Mutating methods become functions from tokenizer to
tokenizer; query methods are pure functions of the tokenizer.
-/

set_option maxRecDepth 10000

namespace Luthor

/-- Token categories, from the Category enum in src/token.rs; the
AssignmentOperator variant is the assignment category used by the JSON and
XML lexers (the design document folds it under "Operator (incl. assignment)"). -/
inductive Category where
  | Whitespace
  | Identifier
  | Keyword
  | Brace
  | Bracket
  | Parenthesis
  | Operator
  | AssignmentOperator
  | Integer
  | Float
  | String
  | Boolean
  | Text
  | Comment
  | Function
  | Method
  | Call
  | Literal
  | Key
  deriving DecidableEq, Repr

/-- A lexeme and category pairing (src/token.rs).  Lexemes are lists of
Unicode scalar values; the Rust String/&str content of a lexeme is exactly
this character sequence. -/
structure Token where
  lexeme : List Char
  category : Category
  deriving DecidableEq, Repr

/-- The Tokenizer of src/tokenizer.rs: remaining data (the `Chars` iterator),
the in-progress lexeme (`current_token`), the committed tokens, and the
explicit stack of suspended states.  The state type is a parameter because
each lexer instantiates StateFunction with its own state graph; `Vec::push`
and `Vec::pop` act on one end of the vector, modelled by consing onto and
uncusing from the head of the list. -/
structure Tokenizer (σ : Type) where
  data : List Char
  current_token : List Char
  tokens : List Token
  states : List σ
  deriving DecidableEq, Repr

/-- tokenizer::new — empty in-progress lexeme, no tokens, no states. -/
def Tokenizer.new {σ : Type} (data : List Char) : Tokenizer σ :=
  { data := data, current_token := [], tokens := [], states := [] }

namespace Tokenizer

variable {σ : Type}

/-- Tokenizer::tokens(): a copy of the committed tokens with any in-progress
and remaining data appended as a trailing Text token. -/
def tokensList (t : Tokenizer σ) : List Token :=
  let remaining_data := t.current_token ++ t.data
  if remaining_data = [] then t.tokens
  else t.tokens ++ [⟨remaining_data, Category.Text⟩]

/-- Tokenizer::advance — move one character from the data to the in-progress
lexeme; no-op when the data is exhausted. -/
def advance (t : Tokenizer σ) : Tokenizer σ :=
  match t.data with
  | [] => t
  | c :: rest => { t with data := rest, current_token := t.current_token ++ [c] }

/-- Tokenizer::current_char — the character at the current position. -/
def current_char (t : Tokenizer σ) : Option Char :=
  t.data.head?

/-- Tokenizer::next_non_whitespace_char. -/
def next_non_whitespace_char (t : Tokenizer σ) : Option Char :=
  t.data.find? (fun c => c != ' ' && c != '\n')

/-- Tokenizer::has_prefix — character-by-character prefix comparison of the
argument against the remaining data. -/
def starts_with (t : Tokenizer σ) (p : List Char) : Bool :=
  p.isPrefixOf t.data

/-- The UTF-8 byte width of a scalar value; `str::len()` is the sum of these
over the characters of the string. -/
def utf8Width (c : Char) : Nat :=
  if c.toNat < 128 then 1
  else if c.toNat < 2048 then 2
  else if c.toNat < 65536 then 3
  else 4

/-- The UTF-8 byte length of a string, as a list of characters. -/
def utf8Length (l : List Char) : Nat :=
  (l.map utf8Width).sum

/-- The boundary test of starts_with_lexeme: the character after the word is
a space, a newline, a comma, or nothing at all. -/
def lexeme_boundary : Option Char → Bool
  | some ' ' | some '\n' | some ',' => true
  | none => true
  | _ => false

/-- Tokenizer::starts_with_lexeme.  The source checks the prefix and then
inspects `data_iter.skip(lexeme.len()).next()`: it skips `lexeme.len()`
characters of the (character) iterator, where `len()` is the BYTE length of
the word, and requires the character found there to pass the boundary test. -/
def starts_with_lexeme (t : Tokenizer σ) (lexeme : List Char) : Bool :=
  t.starts_with lexeme && lexeme_boundary (t.data.drop (utf8Length lexeme)).head?

/-- Tokenizer::tokenize — commit the in-progress lexeme under the given
category; no-op when the in-progress lexeme is empty. -/
def tokenize (t : Tokenizer σ) (category : Category) : Tokenizer σ :=
  if t.current_token = [] then t
  else { t with tokens := t.tokens ++ [⟨t.current_token, category⟩], current_token := [] }

/-- The `for _ in 0..amount { self.advance(); }` loop of tokenize_next. -/
def advanceN (t : Tokenizer σ) : Nat → Tokenizer σ
  | 0 => t
  | n + 1 => t.advance.advanceN n

/-- Tokenizer::tokenize_next — flush the pending span as Text, advance
`amount` times, commit the consumed span under the given category. -/
def tokenize_next (t : Tokenizer σ) (amount : Nat) (category : Category) : Tokenizer σ :=
  ((t.tokenize Category.Text).advanceN amount).tokenize category

/-- Space or newline, the whitespace alphabet of the toolkit. -/
def wsChar (c : Char) : Bool :=
  c = ' ' || c = '\n'

/-- The remaining iterations of the consume_whitespace loop once the first
whitespace character has been seen (found_whitespace = true), recursing
structurally on the remaining data: keep advancing over spaces and newlines,
then commit the run as a Whitespace token.  The cons branch inlines `advance`
at a nonempty data list. -/
def wsLoopGo (ct : List Char) (tk : List Token) (st : List σ) : List Char → Tokenizer σ
  | [] => Tokenizer.tokenize ⟨[], ct, tk, st⟩ Category.Whitespace
  | c :: rest =>
    if wsChar c then wsLoopGo (ct ++ [c]) tk st rest
    else Tokenizer.tokenize ⟨c :: rest, ct, tk, st⟩ Category.Whitespace

/-- The consume_whitespace loop with found_whitespace already set. -/
def wsLoop (t : Tokenizer σ) : Tokenizer σ :=
  wsLoopGo t.current_token t.tokens t.states t.data

/-- Tokenizer::consume_whitespace.  The first loop iteration flushes the
pending span as Text only when the current character is whitespace; with a
non-whitespace (or absent) current character the whole call is a no-op. -/
def consume_whitespace (t : Tokenizer σ) : Tokenizer σ :=
  match t.current_char with
  | some c => if wsChar c then wsLoop ((t.tokenize Category.Text).advance) else t
  | none => t

/-- `tokenizer.states.push(state)`. -/
def push_state (t : Tokenizer σ) (s : σ) : Tokenizer σ :=
  { t with states := s :: t.states }

end Tokenizer

/-- Concatenation of the lexemes of a token sequence, in emission order. -/
def joinLexemes : List Token → List Char
  | [] => []
  | tok :: rest => tok.lexeme ++ joinLexemes rest

/-- The full character content a tokenizer accounts for: committed lexemes,
then the in-progress lexeme, then the remaining data. -/
def reconstruct {σ : Type} (t : Tokenizer σ) : List Char :=
  joinLexemes t.tokens ++ t.current_token ++ t.data

/-- starts_with_lexeme as the design document words it: the remaining data
starts with the word and the character immediately following the word — at
character offset `w.length` — is a space, newline, comma, or end-of-input.
Stated for comparison with Tokenizer.starts_with_lexeme, which skips
byte-length-many characters instead. -/
def specStartsWithLexeme {σ : Type} (t : Tokenizer σ) (w : List Char) : Bool :=
  w.isPrefixOf t.data && Tokenizer.lexeme_boundary (t.data.drop w.length).head?

/-- consume_whitespace as the design document words it: flush any pending
span as Text, advance over the maximal space/newline run, then commit the
consumed run as a Whitespace token (a no-op commit when nothing was
consumed).  Stated for comparison with Tokenizer.consume_whitespace. -/
def specConsumeWhitespace {σ : Type} (t : Tokenizer σ) : Tokenizer σ :=
  ((t.tokenize Category.Text).advanceN (t.data.takeWhile Tokenizer.wsChar).length).tokenize
    Category.Whitespace

/-- Tokenizer::tokens() as a state-passing operation: the body reads the
committed tokens and a clone of the character iterator, building the result
list, and the receiver (&self) is handed back untouched. -/
def Tokenizer.tokensOp {σ : Type} (t : Tokenizer σ) : List Token × Tokenizer σ :=
  (t.tokensList, t)

/-- Every committed token has a non-empty lexeme. -/
def noEmptyTokens {σ : Type} (t : Tokenizer σ) : Prop :=
  ∀ tok ∈ t.tokens, tok.lexeme ≠ []

/-- All tokenizer configurations a lexer can reach from a fresh tokenizer over
input `D` using the public operations of the scanner. -/
inductive Reachable {σ : Type} (D : List Char) : Tokenizer σ → Prop where
  | init : Reachable D (Tokenizer.new D)
  | advance {t : Tokenizer σ} : Reachable D t → Reachable D t.advance
  | tokenize {t : Tokenizer σ} (c : Category) : Reachable D t → Reachable D (t.tokenize c)
  | tokenize_next {t : Tokenizer σ} (n : Nat) (c : Category) :
      Reachable D t → Reachable D (t.tokenize_next n c)
  | consume_whitespace {t : Tokenizer σ} : Reachable D t → Reachable D t.consume_whitespace
  | push_state {t : Tokenizer σ} (s : σ) : Reachable D t → Reachable D (t.push_state s)
  | pop_state {t : Tokenizer σ} : Reachable D t → Reachable D { t with states := t.states.tail }

namespace Json

/-- The states of the JSON lexer (src/lexers/json.rs). -/
inductive JState where
  | initial_state
  | inside_string
  | whitespace
  deriving DecidableEq, Repr

/-- One invocation of the current state function of the JSON lexer: the
updated tokenizer together with the next state, or none when the state
signals that lexing is complete.  The literal branch of initial_state fires
only when `token_position == token_start` (no pending span, current_token
empty) and tests `data[token_position..]` (the remaining data) for a bare
"true"/"false"/"null" prefix. -/
def step : JState → Tokenizer JState → Option JState × Tokenizer JState
  | .initial_state, t =>
    match t.current_char with
    | some c =>
      if c = '{' then (some .initial_state, t.tokenize_next 1 .Brace)
      else if c = '[' then (some .initial_state, t.tokenize_next 1 .Bracket)
      else if c = ' ' ∨ c = '\n' then (some .whitespace, (t.tokenize .Text).advance)
      else if c = '"' then (some .inside_string, (t.tokenize .Text).advance)
      else if c = ':' then (some .initial_state, t.tokenize_next 1 .AssignmentOperator)
      else if c = '}' then (some .initial_state, t.tokenize_next 1 .Brace)
      else if c = ']' then (some .initial_state, t.tokenize_next 1 .Bracket)
      else if t.current_token = [] then
        if t.starts_with ("true".toList) then (some .initial_state, t.tokenize_next 4 .Boolean)
        else if t.starts_with ("false".toList) then
          (some .initial_state, t.tokenize_next 5 .Boolean)
        else if t.starts_with ("null".toList) then
          (some .initial_state, t.tokenize_next 4 .Keyword)
        else (some .initial_state, t.advance)
      else (some .initial_state, t.advance)
    | none => (none, t.tokenize .Text)
  | .inside_string, t =>
    match t.current_char with
    | some c =>
      if c = '"' then (some .initial_state, t.advance.tokenize .String)
      else if c = '\\' then (some .inside_string, t.advance.advance)
      else (some .inside_string, t.advance)
    | none => (none, t.tokenize .String)

  | .whitespace, t =>
    match t.current_char with
    | some c =>
      if c = ' ' ∨ c = '\n' then (some .whitespace, t.advance)
      else (some .initial_state, t.tokenize .Whitespace)
    | none => (none, t.tokenize .Whitespace)

/-- The driving loop of json::lex: invoke the current state until it returns
none, then return tokens().  The fuel counts loop iterations; none means the
fuel ran out first. -/
def run : Nat → JState → Tokenizer JState → Option (List Token)
  | 0, _, _ => none
  | n + 1, s, t =>
    match step s t with
    | (some s2, t2) => run n s2 t2
    | (none, t2) => some t2.tokensList

/-- Loop-iteration measure for the JSON lexer: the whitespace state is the
only state that can hand control back without consuming a character. -/
def rank : JState → Nat
  | .whitespace => 1
  | _ => 0

/-- A fuel bound sufficient for any run (proved below). -/
def bound (data : List Char) : Nat :=
  2 * data.length + 2

/-- json::lex — build a tokenizer and drive it from initial_state. -/
def lex (data : List Char) : List Token :=
  match run (bound data) .initial_state (Tokenizer.new data) with
  | some ts => ts
  | none => []

end Json

namespace Xml

/-- The states of the XML lexer (src/lexers/xml.rs). -/
inductive XState where
  | initial_state
  | start_of_tag
  | inside_tag
  | inside_string
  | whitespace
  deriving DecidableEq, Repr

/-- One invocation of the current state function of the XML lexer.  In the
whitespace state the source pops the state stack with `.unwrap()`; the
empty-stack fallback to initial_state below models the panic branch, and is
proved unreachable from xml::lex (every entry into the whitespace state
pushes a resume state first). -/
def step : XState → Tokenizer XState → Option XState × Tokenizer XState
  | .initial_state, t =>
    match t.current_char with
    | some c =>
      if t.starts_with ("</".toList) then
        (some .inside_tag, (t.tokenize .Identifier).tokenize_next 2 .Text)
      else if c = '<' then (some .start_of_tag, t.tokenize_next 1 .Text)
      else if c = ' ' ∨ c = '\n' then
        (some .whitespace, ((t.tokenize .Text).advance).push_state .initial_state)
      else (some .initial_state, t.advance)
    | none => (none, t.tokenize .Text)
  | .start_of_tag, t =>
    match t.current_char with
    | some c =>
      if c = ' ' ∨ c = '\n' then
        (some .whitespace, (t.tokenize .Identifier).push_state .inside_tag)
      else if c = '>' then
        (some .initial_state, (t.tokenize .Identifier).tokenize_next 1 .Text)
      else (some .start_of_tag, t.advance)
    | none => (none, t.tokenize .Identifier)
  | .inside_tag, t =>
    match t.current_char with
    | some c =>
      if c = '"' then (some .inside_string, (t.tokenize .Identifier).advance)
      else if c = ' ' ∨ c = '\n' then
        (some .whitespace, ((t.tokenize .Identifier).advance).push_state .inside_tag)
      else if c = '=' then
        (some .inside_tag, (t.tokenize .Identifier).tokenize_next 1 .AssignmentOperator)
      else if c = '>' then
        (some .initial_state, (t.tokenize .Identifier).tokenize_next 1 .Text)
      else if t.starts_with ("/>".toList) then
        (some .initial_state, (t.tokenize .Identifier).tokenize_next 2 .Text)
      else (some .inside_tag, t.advance)
    | none => (none, t.tokenize .Identifier)
  | .inside_string, t =>
    match t.current_char with
    | some c =>
      if c = '"' then (some .inside_tag, t.advance.tokenize .String)
      else if c = '\\' then (some .inside_string, t.advance.advance)
      else (some .inside_string, t.advance)
    | none => (none, t.tokenize .String)

  | .whitespace, t =>
    match t.current_char with
    | some c =>
      if c = ' ' ∨ c = '\n' then (some .whitespace, t.advance)
      else
        match (t.tokenize .Whitespace).states with
        | s :: rest => (some s, { t.tokenize .Whitespace with states := rest })
        | [] => (some .initial_state, t.tokenize .Whitespace)
    | none => (none, t.tokenize .Whitespace)

/-- The driving loop of xml::lex (identical in shape to the JSON one). -/
def run : Nat → XState → Tokenizer XState → Option (List Token)
  | 0, _, _ => none
  | n + 1, s, t =>
    match step s t with
    | (some s2, t2) => run n s2 t2
    | (none, t2) => some t2.tokensList

/-- Iteration measure ingredient for the XML lexer: extra credit for the
states that can hand control onward without consuming a character (the
whitespace state when the run has ended, and start_of_tag entering the
whitespace state). -/
def rank (s : XState) (oc : Option Char) : Nat :=
  match s, oc with
  | .start_of_tag, some c => if Tokenizer.wsChar c then 3 else 0
  | .whitespace, some c => if Tokenizer.wsChar c then 0 else 2
  | _, _ => 0

/-- A fuel bound sufficient for any run (proved below). -/
def bound (data : List Char) : Nat :=
  8 * data.length + 8

/-- xml::lex. -/
def lex (data : List Char) : List Token :=
  match run (bound data) .initial_state (Tokenizer.new data) with
  | some ts => ts
  | none => []

end Xml

namespace Ruby

/-- The states of the Ruby lexer (src/lexers/ruby.rs). -/
inductive RState where
  | initial_state
  | inside_string
  | inside_single_quote_string
  | whitespace
  | argument
  | identifier
  | method
  | comment
  | integer
  | symbol
  deriving DecidableEq, Repr

/-- The keyword chain at the top of the Ruby lexer's initial state: each
starts_with_lexeme test early-returns with its transition; none matching
falls through (none) to the character dispatch below. -/
def initial_state_keywords (t : Tokenizer RState) :
    Option (Option RState × Tokenizer RState) :=
    if t.starts_with_lexeme ("class".toList) then
      some (some .whitespace, (t.tokenize_next 5 .Keyword).push_state .identifier)
    else if t.starts_with_lexeme ("module".toList) then
      some (some .whitespace, (t.tokenize_next 6 .Keyword).push_state .identifier)
    else if t.starts_with_lexeme ("include".toList) then
      some (some .whitespace, (t.tokenize_next 7 .Keyword).push_state .identifier)
    else if t.starts_with_lexeme ("extend".toList) then
      some (some .whitespace, (t.tokenize_next 6 .Keyword).push_state .identifier)
    else if t.starts_with_lexeme ("def".toList) then
      some (some .whitespace, (t.tokenize_next 3 .Keyword).push_state .method)
    else if t.starts_with_lexeme ("do".toList) then
      some (some .whitespace, t.tokenize_next 2 .Keyword)
    else if t.starts_with_lexeme ("if".toList) then
      some (some .whitespace, t.tokenize_next 2 .Keyword)
    else if t.starts_with_lexeme ("unless".toList) then
      some (some .whitespace, t.tokenize_next 6 .Keyword)
    else if t.starts_with_lexeme ("elsif".toList) then
      some (some .whitespace, t.tokenize_next 5 .Keyword)
    else if t.starts_with_lexeme ("else".toList) then
      some (some .whitespace, t.tokenize_next 4 .Keyword)
    else if t.starts_with_lexeme ("end".toList) then
      some (some .initial_state, t.tokenize_next 3 .Keyword)
    else if t.starts_with_lexeme ("true".toList) then
      some (some .initial_state, t.tokenize_next 4 .Boolean)
    else if t.starts_with_lexeme ("false".toList) then
      some (some .initial_state, t.tokenize_next 5 .Boolean)
    else if t.starts_with_lexeme ("nil".toList) then
      some (some .initial_state, t.tokenize_next 3 .Literal)
    else if t.starts_with_lexeme ("private".toList) then
      some (some .initial_state, t.tokenize_next 7 .Keyword)
    else if t.starts_with_lexeme ("begin".toList) then
      some (some .initial_state, t.tokenize_next 5 .Keyword)
    else if t.starts_with_lexeme ("rescue".toList) then
      some (some .initial_state, t.tokenize_next 6 .Keyword)
    else if t.starts_with_lexeme ("raise".toList) then
      some (some .initial_state, t.tokenize_next 5 .Keyword)
    else none

/-- The character dispatch of the Ruby lexer's initial state, for current
character `c`.  Rust's char::is_numeric and char::is_alphanumeric accept some
non-ASCII Unicode numerals and letters that Char.isDigit/Char.isAlphanum do
not; the two predicates agree on all ASCII input. -/
def initial_state_char (t : Tokenizer RState) (c : Char) : Option RState × Tokenizer RState :=
        if c = '"' then (some .inside_string, (t.tokenize .Text).advance)
        else if c = '\'' then (some .inside_single_quote_string, (t.tokenize .Text).advance)
        else if c = '#' then
          (some .comment, ((t.tokenize .Text).advance).push_state .initial_state)
        else if c = '|' then (some .whitespace, (t.tokenize_next 1 .Text).push_state .argument)
        else if c = '.' then (some .initial_state, t.tokenize_next 1 .Text)
        else if c = '(' then (some .argument, (t.tokenize .Call).tokenize_next 1 .Text)
        else if c = '+' then (some .initial_state, t.tokenize_next 1 .Operator)
        else if c = ' ' ∨ c = '\n' then
          (some .initial_state,
            if t.next_non_whitespace_char = some '=' then
              ((t.tokenize .Identifier).consume_whitespace).tokenize_next 1 .Text
            else t.consume_whitespace)
        else if c = '=' then (some .initial_state, (t.tokenize .Identifier).tokenize_next 1 .Text)
        else if c = '@' then (some .identifier, t.tokenize .Text)
        else if c = '[' then (some .initial_state, (t.tokenize .Identifier).tokenize_next 1 .Text)
        else if c = ']' then (some .initial_state, t.tokenize_next 1 .Text)
        else if c = ':' then
          if t.starts_with (": ".toList) then
            (some .initial_state, ((t.tokenize .Literal).tokenize_next 1 .Text).consume_whitespace)
          else (some .symbol, t.advance)
        else if c.isDigit then (some .integer, t.advance)
        else (some .initial_state, t.advance)

/-- The initial state function of the Ruby lexer: the keyword chain first,
then the character dispatch. -/
def initial_state (t : Tokenizer RState) : Option RState × Tokenizer RState :=
  match initial_state_keywords t with
  | some r => r
  | none =>
    match t.current_char with
    | some c => initial_state_char t c
    | none => (none, t.tokenize .Text)

/-- The inside_string state function of the Ruby lexer. -/
def inside_string (t : Tokenizer RState) : Option RState × Tokenizer RState :=
    match t.current_char with
    | some c =>
      if c = '"' then (some .initial_state, t.advance.tokenize .String)
      else if c = '\\' then (some .inside_string, t.advance.advance)
      else (some .inside_string, t.advance)
    | none => (none, t.tokenize .String)

/-- The inside_single_quote_string state function of the Ruby lexer. -/
def inside_single_quote_string (t : Tokenizer RState) : Option RState × Tokenizer RState :=
    match t.current_char with
    | some c =>
      if c = '\'' then (some .initial_state, t.advance.tokenize .String)
      else if c = '\\' then (some .inside_single_quote_string, t.advance.advance)
      else (some .inside_single_quote_string, t.advance)
    | none => (none, t.tokenize .String)

/-- The whitespace state function of the Ruby lexer: at the end of a run it
pops the state stack for the next state, falling back to initial_state when
the stack is empty. -/
def whitespace (t : Tokenizer RState) : Option RState × Tokenizer RState :=
    match t.current_char with
    | some c =>
      if c = ' ' ∨ c = '\n' then (some .whitespace, t.advance)
      else
        match (t.tokenize .Whitespace).states with
        | s :: rest => (some s, { t.tokenize .Whitespace with states := rest })
        | [] => (some .initial_state, t.tokenize .Whitespace)
    | none => (none, t.tokenize .Whitespace)

/-- The argument state function of the Ruby lexer. -/
def argument (t : Tokenizer RState) : Option RState × Tokenizer RState :=
    if t.starts_with_lexeme ("true".toList) then (some .argument, t.tokenize_next 4 .Boolean)
    else if t.starts_with_lexeme ("false".toList) then
      (some .argument, t.tokenize_next 5 .Boolean)
    else
      match t.current_char with
      | some c =>
        if c = ' ' ∨ c = '\n' then
          (some .whitespace, (t.tokenize .Identifier).push_state .argument)
        else if c = '|' ∨ c = ')' then
          (some .initial_state, (t.tokenize .Identifier).tokenize_next 1 .Text)
        else if c = '=' ∨ c = ',' then
          (some .argument, (t.tokenize .Identifier).tokenize_next 1 .Text)
        else (some .argument, t.advance)
      | none => (none, t.tokenize .Identifier)

/-- The identifier state function of the Ruby lexer. -/
def identifier (t : Tokenizer RState) : Option RState × Tokenizer RState :=
    match t.current_char with
    | some c =>
      if c = ' ' ∨ c = '\n' then (some .initial_state, t.tokenize .Identifier)
      else if c = '|' ∨ c = '(' ∨ c = ')' ∨ c = '-' ∨ c = ';' ∨ c = '{' ∨ c = '}' then
        (some .initial_state, (t.tokenize .Identifier).tokenize_next 1 .Text)
      else (some .identifier, t.advance)
    | none => (none, t.tokenize .Identifier)

/-- The method state function of the Ruby lexer (note the source commits the
trailing run as Whitespace at end-of-input). -/
def method (t : Tokenizer RState) : Option RState × Tokenizer RState :=
    match t.current_char with
    | some c =>
      if c = ' ' ∨ c = '\n' then (some .initial_state, t.tokenize .Method)
      else if c = '(' then (some .argument, (t.tokenize .Method).tokenize_next 1 .Text)
      else (some .method, t.advance)
    | none => (none, t.tokenize .Whitespace)

/-- The comment state function of the Ruby lexer (the source commits the
trailing run as Whitespace at end-of-input). -/
def comment (t : Tokenizer RState) : Option RState × Tokenizer RState :=
    match t.current_char with
    | some c =>
      if c = '\n' then (some .initial_state, t.tokenize .Comment)
      else (some .comment, t.advance)
    | none => (none, t.tokenize .Whitespace)

/-- The integer state function of the Ruby lexer. -/
def integer (t : Tokenizer RState) : Option RState × Tokenizer RState :=
    match t.current_char with
    | some c =>
      if c.isDigit then (some .integer, t.advance)
      else (some .initial_state, t.tokenize .Integer)
    | none => (none, t.tokenize .Integer)

/-- The symbol state function of the Ruby lexer. -/
def symbol (t : Tokenizer RState) : Option RState × Tokenizer RState :=
    match t.current_char with
    | some c =>
      if c.isAlphanum ∨ c = '_' ∨ c = '?' then (some .symbol, t.advance)
      else (some .initial_state, t.tokenize .Literal)
    | none => (none, t.tokenize .Literal)

/-- Dispatch from a state value to its state function. -/
def step : RState → Tokenizer RState → Option RState × Tokenizer RState
  | .initial_state => initial_state
  | .inside_string => inside_string
  | .inside_single_quote_string => inside_single_quote_string
  | .whitespace => whitespace
  | .argument => argument
  | .identifier => identifier
  | .method => method
  | .comment => comment
  | .integer => integer
  | .symbol => symbol

/-- The driving loop of ruby::lex: when the current state signals that it is
finished, the loop pops the state stack and resumes the popped state; only
with an empty stack does the pass end, yielding the final state and
tokenizer. -/
def run : Nat → RState → Tokenizer RState → Option (RState × Tokenizer RState)
  | 0, _, _ => none
  | n + 1, s, t =>
    match step s t with
    | (some s2, t2) => run n s2 t2
    | (none, t2) =>
      match t2.states with
      | s2 :: rest => run n s2 { t2 with states := rest }
      | [] => some (s, t2)

/-- Iteration measure ingredient for the Ruby lexer: positive exactly for the
state/lookahead pairs from which the next transition can neither consume a
character nor shrink the state stack. -/
def rank (s : RState) (oc : Option Char) : Nat :=
  match s, oc with
  | .initial_state, some c => if c = '@' then 1 else 0
  | .identifier, some c => if Tokenizer.wsChar c then 1 else 0
  | .method, some c => if Tokenizer.wsChar c then 1 else 0
  | .argument, some c => if Tokenizer.wsChar c then 3 else 0
  | .whitespace, some c => if Tokenizer.wsChar c then 0 else 2
  | .comment, some c => if c = '\n' then 1 else 0
  | .integer, some c => if c.isDigit then 0 else 2
  | .symbol, some c => if c.isAlphanum ∨ c = '_' ∨ c = '?' then 0 else 2
  | _, _ => 0

/-- A fuel bound sufficient for any run (proved below). -/
def bound (data : List Char) : Nat :=
  8 * data.length + 8

/-- ruby::lex. -/
def lex (data : List Char) : List Token :=
  match run (bound data) .initial_state (Tokenizer.new data) with
  | some (_, t) => t.tokensList
  | none => []

end Ruby

namespace Erb

/-- The two carving states of the HTML-ERB lexer (src/lexers/html_erb.rs):
plain markup, and the inside of an erb tag. -/
inductive EState where
  | initial_state
  | ruby
  deriving DecidableEq, Repr

/-- One invocation of the current carving state of the HTML-ERB lexer. -/
def step : EState → Tokenizer EState → Option EState × Tokenizer EState
  | .initial_state, t =>
    if t.starts_with ("<%=".toList) then (some .ruby, t.tokenize_next 3 .Keyword)
    else if t.starts_with ("<%".toList) then (some .ruby, t.tokenize_next 2 .Keyword)
    else
      match t.current_char with
      | some _ => (some .initial_state, t.advance)
      | none => (none, t.tokenize .Text)
  | .ruby, t =>
    if t.starts_with ("%>".toList) then
      (some .initial_state, (t.tokenize .String).tokenize_next 2 .Keyword)
    else
      match t.current_char with
      | some _ => (some .ruby, t.advance)
      | none => (none, t.tokenize .String)

/-- The carving loop of html_erb::lex. -/
def run : Nat → EState → Tokenizer EState → Option (List Token)
  | 0, _, _ => none
  | n + 1, s, t =>
    match step s t with
    | (some s2, t2) => run n s2 t2
    | (none, t2) => some t2.tokensList

/-- A fuel bound sufficient for any carving run (proved below). -/
def bound (data : List Char) : Nat :=
  data.length + 2

/-- Phase one of html_erb::lex: carve the document into Keyword (erb tag),
String (embedded Ruby) and Text (markup) runs. -/
def carve (data : List Char) : List Token :=
  match run (bound data) .initial_state (Tokenizer.new data) with
  | some ts => ts
  | none => []

/-- The fold body of html_erb::lex: erb tags (Keyword) pass through, Ruby
runs (String) are re-lexed by the Ruby lexer, markup runs (Text) by the XML
lexer, and anything else is dropped. -/
def splice (acc : List Token) (tok : Token) : List Token :=
  match tok.category with
  | .Keyword => acc ++ [tok]
  | .String => acc ++ Ruby.lex tok.lexeme
  | .Text => acc ++ Xml.lex tok.lexeme
  | _ => acc

/-- html_erb::lex — carve, then splice sub-lexer output into the carved
runs. -/
def lex (data : List Char) : List Token :=
  (carve data).foldl splice []

end Erb

namespace Default

/-- The states of the fallback lexer (src/lexers/default.rs). -/
inductive DState where
  | initial_state
  | whitespace
  deriving DecidableEq, Repr

/-- One invocation of the current state function of the fallback lexer. -/
def step : DState → Tokenizer DState → Option DState × Tokenizer DState
  | .initial_state, t =>
    match t.current_char with
    | some c =>
      if c = ' ' ∨ c = '\n' then (some .whitespace, (t.tokenize .Text).advance)
      else (some .initial_state, t.advance)
    | none => (none, t.tokenize .Text)
  | .whitespace, t =>
    match t.current_char with
    | some c =>
      if c = ' ' ∨ c = '\n' then (some .whitespace, t.advance)
      else (some .initial_state, t.tokenize .Whitespace)
    | none => (none, t.tokenize .Whitespace)

/-- The driving loop of default::lex. -/
def run : Nat → DState → Tokenizer DState → Option (List Token)
  | 0, _, _ => none
  | n + 1, s, t =>
    match step s t with
    | (some s2, t2) => run n s2 t2
    | (none, t2) => some t2.tokensList

/-- Iteration measure for the fallback lexer. -/
def rank : DState → Nat
  | .whitespace => 1
  | _ => 0

/-- A fuel bound sufficient for any run (proved below). -/
def bound (data : List Char) : Nat :=
  2 * data.length + 2

/-- default::lex. -/
def lex (data : List Char) : List Token :=
  match run (bound data) .initial_state (Tokenizer.new data) with
  | some ts => ts
  | none => []

end Default

/-- The categories the HTML-ERB carving phase may emit: erb tag, embedded
Ruby, or markup. -/
def carveCategories (ts : List Token) : Prop :=
  ∀ tok ∈ ts, tok.category = Category.Keyword ∨ tok.category = Category.String ∨
    tok.category = Category.Text

section Invariants

variable {σ : Type}

@[simp] theorem joinLexemes_nil : joinLexemes [] = [] := rfl

@[simp] theorem joinLexemes_cons (tok : Token) (rest : List Token) :
    joinLexemes (tok :: rest) = tok.lexeme ++ joinLexemes rest := rfl

@[simp] theorem joinLexemes_append (a b : List Token) :
    joinLexemes (a ++ b) = joinLexemes a ++ joinLexemes b := by
  induction a with
  | nil => simp
  | cons tok rest ih => simp [ih]

theorem reconstruct_new (D : List Char) : reconstruct (Tokenizer.new D : Tokenizer σ) = D := by
  simp [reconstruct, Tokenizer.new]

/-- The output of tokens() concatenates to exactly the content the tokenizer
accounts for. -/
theorem joinLexemes_tokensList (t : Tokenizer σ) :
    joinLexemes t.tokensList = reconstruct t := by
  unfold Tokenizer.tokensList reconstruct
  by_cases h : t.current_token ++ t.data = []
  · rcases List.append_eq_nil.mp h with ⟨h1, h2⟩
    simp [h, h1, h2]
  · simp [h]

@[simp] theorem advance_reconstruct (t : Tokenizer σ) :
    reconstruct t.advance = reconstruct t := by
  unfold Tokenizer.advance
  cases h : t.data with
  | nil => rfl
  | cons c rest => simp [reconstruct, h]

@[simp] theorem reconstruct_mk (d ct : List Char) (tk : List Token) (st : List σ) :
    reconstruct (⟨d, ct, tk, st⟩ : Tokenizer σ) = joinLexemes tk ++ ct ++ d := rfl

/-- tokenize always leaves an empty in-progress lexeme behind. -/
@[simp] theorem tokenize_current_token_nil (t : Tokenizer σ) (c : Category) :
    (t.tokenize c).current_token = [] := by
  unfold Tokenizer.tokenize
  split
  · assumption
  · rfl

@[simp] theorem joinLexemes_tokenize (t : Tokenizer σ) (c : Category) :
    joinLexemes (t.tokenize c).tokens = joinLexemes t.tokens ++ t.current_token := by
  unfold Tokenizer.tokenize
  split
  · simp_all
  · simp

@[simp] theorem tokenize_reconstruct (t : Tokenizer σ) (c : Category) :
    reconstruct (t.tokenize c) = reconstruct t := by
  unfold Tokenizer.tokenize
  by_cases h : t.current_token = [] <;> simp [reconstruct, h]

@[simp] theorem advanceN_reconstruct (n : Nat) (t : Tokenizer σ) :
    reconstruct (t.advanceN n) = reconstruct t := by
  induction n generalizing t with
  | zero => rfl
  | succ n ih => simp [Tokenizer.advanceN, ih]

@[simp] theorem tokenize_next_reconstruct (t : Tokenizer σ) (n : Nat) (c : Category) :
    reconstruct (t.tokenize_next n c) = reconstruct t := by
  simp [Tokenizer.tokenize_next]

/-- Closed form of the consume_whitespace loop: it advances over exactly the
maximal whitespace run and commits it (together with whatever was already
in progress) as one Whitespace token. -/
theorem wsLoopGo_spec (ct : List Char) (tk : List Token) (st : List σ) (d : List Char) :
    Tokenizer.wsLoopGo ct tk st d =
      Tokenizer.tokenize
        ⟨d.dropWhile Tokenizer.wsChar, ct ++ d.takeWhile Tokenizer.wsChar, tk, st⟩
        Category.Whitespace := by
  induction d generalizing ct with
  | nil => simp [Tokenizer.wsLoopGo]
  | cons c rest ih =>
    by_cases h : Tokenizer.wsChar c
    · simp [Tokenizer.wsLoopGo, h, ih, List.takeWhile_cons, List.dropWhile_cons]
    · simp [Tokenizer.wsLoopGo, h, List.takeWhile_cons, List.dropWhile_cons]

theorem wsLoop_spec (t : Tokenizer σ) :
    t.wsLoop = Tokenizer.tokenize
      { t with data := t.data.dropWhile Tokenizer.wsChar,
               current_token := t.current_token ++ t.data.takeWhile Tokenizer.wsChar }
      Category.Whitespace := by
  obtain ⟨d, ct, tk, st⟩ := t
  exact wsLoopGo_spec ct tk st d

@[simp] theorem wsLoop_reconstruct (t : Tokenizer σ) :
    reconstruct t.wsLoop = reconstruct t := by
  rw [wsLoop_spec, tokenize_reconstruct]
  simp [reconstruct, List.takeWhile_append_dropWhile]

@[simp] theorem consume_whitespace_reconstruct (t : Tokenizer σ) :
    reconstruct t.consume_whitespace = reconstruct t := by
  unfold Tokenizer.consume_whitespace
  cases h : t.current_char with
  | none => rfl
  | some c =>
    by_cases hws : Tokenizer.wsChar c <;> simp [hws]

@[simp] theorem push_state_reconstruct (t : Tokenizer σ) (s : σ) :
    reconstruct (t.push_state s) = reconstruct t := rfl

@[simp] theorem states_set_reconstruct (t : Tokenizer σ) (l : List σ) :
    reconstruct { t with states := l } = reconstruct t := rfl

theorem tokenize_noEmpty {t : Tokenizer σ} (h : noEmptyTokens t) (c : Category) :
    noEmptyTokens (t.tokenize c) := by
  unfold Tokenizer.tokenize
  by_cases he : t.current_token = []
  · simpa [he] using h
  · intro tok hm
    simp only [he, if_false] at hm
    rcases List.mem_append.mp hm with hl | hr
    · exact h tok hl
    · simp only [List.mem_singleton] at hr
      subst hr
      exact he

theorem advance_noEmpty {t : Tokenizer σ} (h : noEmptyTokens t) :
    noEmptyTokens t.advance := by
  unfold Tokenizer.advance
  cases hd : t.data with
  | nil => exact h
  | cons c rest => exact h

theorem advanceN_noEmpty {t : Tokenizer σ} (h : noEmptyTokens t) (n : Nat) :
    noEmptyTokens (t.advanceN n) := by
  induction n generalizing t with
  | zero => exact h
  | succ n ih => exact ih (advance_noEmpty h)

theorem tokenize_next_noEmpty {t : Tokenizer σ} (h : noEmptyTokens t) (n : Nat) (c : Category) :
    noEmptyTokens (t.tokenize_next n c) :=
  tokenize_noEmpty (advanceN_noEmpty (tokenize_noEmpty h Category.Text) n) c

theorem wsLoop_noEmpty {t : Tokenizer σ} (h : noEmptyTokens t) :
    noEmptyTokens t.wsLoop := by
  rw [wsLoop_spec]
  exact tokenize_noEmpty
    (t := { t with data := t.data.dropWhile Tokenizer.wsChar,
                   current_token := t.current_token ++ t.data.takeWhile Tokenizer.wsChar })
    h Category.Whitespace

theorem consume_whitespace_noEmpty {t : Tokenizer σ} (h : noEmptyTokens t) :
    noEmptyTokens t.consume_whitespace := by
  unfold Tokenizer.consume_whitespace
  cases hc : t.current_char with
  | none => exact h
  | some c =>
    by_cases hws : Tokenizer.wsChar c
    · simp only [hws, if_true]
      exact wsLoop_noEmpty (advance_noEmpty (tokenize_noEmpty h Category.Text))
    · simpa [hws] using h

/-- Losslessness invariant: every reachable configuration accounts for the
whole input. -/
theorem reachable_reconstruct {σ : Type} {D : List Char} {t : Tokenizer σ}
    (h : Reachable D t) : reconstruct t = D := by
  induction h with
  | init => exact reconstruct_new D
  | advance _ ih => rw [advance_reconstruct]; exact ih
  | tokenize c _ ih => rw [tokenize_reconstruct]; exact ih
  | tokenize_next n c _ ih => rw [tokenize_next_reconstruct]; exact ih
  | consume_whitespace _ ih => rw [consume_whitespace_reconstruct]; exact ih
  | push_state s _ ih => rw [push_state_reconstruct]; exact ih
  | pop_state _ ih => rw [states_set_reconstruct]; exact ih

/-- No reachable configuration has committed an empty token. -/
theorem reachable_noEmpty {σ : Type} {D : List Char} {t : Tokenizer σ}
    (h : Reachable D t) : noEmptyTokens t := by
  induction h with
  | init => intro tok hm; simp [Tokenizer.new] at hm
  | advance _ ih => exact advance_noEmpty ih
  | tokenize c _ ih => exact tokenize_noEmpty ih c
  | tokenize_next n c _ ih => exact tokenize_next_noEmpty ih n c
  | consume_whitespace _ ih => exact consume_whitespace_noEmpty ih
  | push_state s _ ih => exact ih
  | pop_state _ ih => exact ih

/-- Lifting the non-emptiness invariant to the output of tokens(). -/
theorem tokensList_noEmpty {σ : Type} {t : Tokenizer σ} (h : noEmptyTokens t) :
    ∀ tok ∈ t.tokensList, tok.lexeme ≠ [] := by
  unfold Tokenizer.tokensList
  by_cases hr : t.current_token ++ t.data = []
  · simpa [hr] using h
  · intro tok hm
    simp only [hr, if_false] at hm
    rcases List.mem_append.mp hm with hl | hr2
    · exact h tok hl
    · simp only [List.mem_singleton] at hr2
      subst hr2
      exact hr

end Invariants

section Structural

variable {σ : Type}

@[simp] theorem tokenize_data (t : Tokenizer σ) (c : Category) :
    (t.tokenize c).data = t.data := by
  unfold Tokenizer.tokenize
  split <;> rfl

@[simp] theorem tokenize_states (t : Tokenizer σ) (c : Category) :
    (t.tokenize c).states = t.states := by
  unfold Tokenizer.tokenize
  split <;> rfl

theorem tokenize_current_token (t : Tokenizer σ) (c : Category) :
    (t.tokenize c).current_token = [] ∨ (t.tokenize c) = t := by
  unfold Tokenizer.tokenize
  split
  · right; rfl
  · left; rfl

@[simp] theorem advance_states (t : Tokenizer σ) : t.advance.states = t.states := by
  unfold Tokenizer.advance
  split <;> rfl

@[simp] theorem advance_tokens (t : Tokenizer σ) : t.advance.tokens = t.tokens := by
  unfold Tokenizer.advance
  split <;> rfl

theorem advance_cons {t : Tokenizer σ} {c : Char} {rest : List Char} (h : t.data = c :: rest) :
    t.advance = { t with data := rest, current_token := t.current_token ++ [c] } := by
  simp only [Tokenizer.advance, h]

theorem advance_nil {t : Tokenizer σ} (h : t.data = []) : t.advance = t := by
  simp only [Tokenizer.advance, h]

/-- A tokenizer with a current character has that character at the head of its
remaining data. -/
theorem current_char_some {t : Tokenizer σ} {c : Char} (hc : t.current_char = some c) :
    t.data = c :: t.data.tail := by
  unfold Tokenizer.current_char at hc
  cases h : t.data with
  | nil => rw [h] at hc; cases hc
  | cons a b =>
    rw [h] at hc
    simp only [List.head?_cons, Option.some.injEq] at hc
    rw [hc]
    rfl

/-- Closed form of the advance loop: `amount` advances move the first `amount`
remaining characters (or all of them, whichever is fewer) onto the in-progress
lexeme. -/
theorem advanceN_spec (n : Nat) (t : Tokenizer σ) :
    t.advanceN n =
      { t with data := t.data.drop n, current_token := t.current_token ++ t.data.take n } := by
  induction n generalizing t with
  | zero =>
    obtain ⟨d, ct, tk, st⟩ := t
    simp [Tokenizer.advanceN]
  | succ n ih =>
    rw [Tokenizer.advanceN]
    cases hd : t.data with
    | nil =>
      rw [advance_nil hd, ih]
      obtain ⟨d, ct, tk, st⟩ := t
      replace hd : d = [] := hd
      subst hd
      simp
    | cons c rest =>
      rw [advance_cons hd, ih]
      obtain ⟨d, ct, tk, st⟩ := t
      replace hd : d = c :: rest := hd
      subst hd
      simp

@[simp] theorem tokenize_next_data (t : Tokenizer σ) (n : Nat) (c : Category) :
    (t.tokenize_next n c).data = t.data.drop n := by
  simp [Tokenizer.tokenize_next, advanceN_spec]

@[simp] theorem tokenize_next_states (t : Tokenizer σ) (n : Nat) (c : Category) :
    (t.tokenize_next n c).states = t.states := by
  simp [Tokenizer.tokenize_next, advanceN_spec]

theorem take_length_takeWhile (p : Char → Bool) (l : List Char) :
    l.take (l.takeWhile p).length = l.takeWhile p := by
  induction l with
  | nil => rfl
  | cons c rest ih =>
    by_cases h : p c <;> simp [List.takeWhile_cons, h, ih]

theorem drop_length_takeWhile (p : Char → Bool) (l : List Char) :
    l.drop (l.takeWhile p).length = l.dropWhile p := by
  induction l with
  | nil => rfl
  | cons c rest ih =>
    by_cases h : p c <;> simp [List.takeWhile_cons, List.dropWhile_cons, h, ih]

/-- Closed form of consume_whitespace when the current character is
whitespace. -/
theorem consume_whitespace_spec {t : Tokenizer σ} {c : Char}
    (hc : t.current_char = some c) (hws : Tokenizer.wsChar c) :
    t.consume_whitespace = Tokenizer.tokenize
      { t with data := t.data.dropWhile Tokenizer.wsChar,
               current_token := t.data.takeWhile Tokenizer.wsChar,
               tokens := (t.tokenize Category.Text).tokens }
      Category.Whitespace := by
  have hd : t.data = c :: t.data.tail := current_char_some hc
  unfold Tokenizer.consume_whitespace
  rw [hc]
  simp only [hws, if_true]
  have hflush : (t.tokenize Category.Text).data = c :: t.data.tail := by
    rw [tokenize_data]; exact hd
  rw [advance_cons hflush, wsLoop_spec]
  have hct : (t.tokenize Category.Text).current_token = [] := by
    unfold Tokenizer.tokenize
    split
    · assumption
    · rfl
  rw [hct]
  conv_rhs => rw [hd]
  simp [List.takeWhile_cons, List.dropWhile_cons, hws]

theorem consume_whitespace_noop {t : Tokenizer σ}
    (h : ∀ c, t.current_char = some c → Tokenizer.wsChar c = false) :
    t.consume_whitespace = t := by
  unfold Tokenizer.consume_whitespace
  cases hc : t.current_char with
  | none => rfl
  | some c => simp [h c hc]

@[simp] theorem consume_whitespace_states (t : Tokenizer σ) :
    t.consume_whitespace.states = t.states := by
  cases hc : t.current_char with
  | none => rw [consume_whitespace_noop (by intro c h; rw [hc] at h; cases h)]
  | some c =>
    by_cases hws : Tokenizer.wsChar c
    · rw [consume_whitespace_spec hc hws]
      rw [tokenize_states]
    · rw [consume_whitespace_noop]
      intro c2 h2
      rw [hc] at h2
      cases h2
      simpa using hws

theorem length_dropWhile_le (p : Char → Bool) (l : List Char) :
    (l.dropWhile p).length ≤ l.length := by
  rw [← drop_length_takeWhile]
  simp

/-- When the current character is whitespace, consume_whitespace strictly
shortens the remaining data. -/
theorem consume_whitespace_data_lt {t : Tokenizer σ} {c : Char}
    (hc : t.current_char = some c) (hws : Tokenizer.wsChar c) :
    t.consume_whitespace.data.length < t.data.length := by
  rw [consume_whitespace_spec hc hws]
  have hd : t.data = c :: t.data.tail := current_char_some hc
  rw [tokenize_data]
  conv_rhs => rw [hd]
  calc (t.data.dropWhile Tokenizer.wsChar).length
      = (t.data.tail.dropWhile Tokenizer.wsChar).length := by
        conv_lhs => rw [hd]
        simp [List.dropWhile_cons, hws]
    _ ≤ t.data.tail.length := length_dropWhile_le _ _
    _ < (c :: t.data.tail).length := by simp

theorem consume_whitespace_data_le (t : Tokenizer σ) :
    t.consume_whitespace.data.length ≤ t.data.length := by
  cases hc : t.current_char with
  | none => rw [consume_whitespace_noop (by intro c h; rw [hc] at h; cases h)]
  | some c =>
    by_cases hws : Tokenizer.wsChar c
    · exact Nat.le_of_lt (consume_whitespace_data_lt hc hws)
    · rw [consume_whitespace_noop]
      intro c2 h2
      rw [hc] at h2
      cases h2
      simpa using hws

@[simp] theorem tokenize_current_char (t : Tokenizer σ) (c : Category) :
    (t.tokenize c).current_char = t.current_char := by
  unfold Tokenizer.current_char
  rw [tokenize_data]

@[simp] theorem push_state_data (t : Tokenizer σ) (s : σ) :
    (t.push_state s).data = t.data := rfl

@[simp] theorem push_state_states (t : Tokenizer σ) (s : σ) :
    (t.push_state s).states = s :: t.states := rfl

@[simp] theorem push_state_current_char (t : Tokenizer σ) (s : σ) :
    (t.push_state s).current_char = t.current_char := rfl

@[simp] theorem states_set_data (t : Tokenizer σ) (l : List σ) :
    ({ t with states := l } : Tokenizer σ).data = t.data := rfl

@[simp] theorem states_set_states (t : Tokenizer σ) (l : List σ) :
    ({ t with states := l } : Tokenizer σ).states = l := rfl

@[simp] theorem states_set_current_char (t : Tokenizer σ) (l : List σ) :
    ({ t with states := l } : Tokenizer σ).current_char = t.current_char := rfl

@[simp] theorem current_char_mk (d ct : List Char) (tk : List Token) (st : List σ) :
    (⟨d, ct, tk, st⟩ : Tokenizer σ).current_char = d.head? := rfl

@[simp] theorem new_data (D : List Char) : (Tokenizer.new D : Tokenizer σ).data = D := rfl

@[simp] theorem new_current_token (D : List Char) :
    (Tokenizer.new D : Tokenizer σ).current_token = [] := rfl

@[simp] theorem new_tokens (D : List Char) : (Tokenizer.new D : Tokenizer σ).tokens = [] := rfl

@[simp] theorem new_states (D : List Char) : (Tokenizer.new D : Tokenizer σ).states = [] := rfl

@[simp] theorem new_current_char (D : List Char) :
    (Tokenizer.new D : Tokenizer σ).current_char = D.head? := rfl

theorem drop_min (l : List Char) (n : Nat) : l.drop (min n l.length) = l.drop n := by
  rcases le_or_lt n l.length with h | h
  · rw [Nat.min_eq_left h]
  · rw [Nat.min_eq_right (Nat.le_of_lt h)]
    rw [List.drop_length, List.drop_eq_nil_of_le (Nat.le_of_lt h)]

theorem take_min (l : List Char) (n : Nat) : l.take (min n l.length) = l.take n := by
  rcases le_or_lt n l.length with h | h
  · rw [Nat.min_eq_left h]
  · rw [Nat.min_eq_right (Nat.le_of_lt h)]
    rw [List.take_length, List.take_all_of_le (Nat.le_of_lt h)]

theorem ascii_utf8Length (w : List Char) (h : ∀ c ∈ w, c.toNat < 128) :
    Tokenizer.utf8Length w = w.length := by
  induction w with
  | nil => rfl
  | cons c rest ih =>
    have hc : c.toNat < 128 := h c (List.mem_cons_self c rest)
    have hrest := ih (fun x hx => h x (List.mem_cons_of_mem c hx))
    unfold Tokenizer.utf8Length at hrest ⊢
    simp only [List.map_cons, List.sum_cons, hrest, List.length_cons]
    unfold Tokenizer.utf8Width
    rw [if_pos hc]
    omega

theorem advance_data_tail (t : Tokenizer σ) : t.advance.data = t.data.tail := by
  obtain ⟨d, ct, tk, st⟩ := t
  cases d <;> rfl

theorem current_char_none {t : Tokenizer σ} (hc : t.current_char = none) : t.data = [] := by
  unfold Tokenizer.current_char at hc
  cases h : t.data with
  | nil => rfl
  | cons a b => rw [h] at hc; cases hc

theorem starts_with_length_le {t : Tokenizer σ} {p : List Char}
    (h : t.starts_with p = true) : p.length ≤ t.data.length := by
  unfold Tokenizer.starts_with at h
  exact (List.isPrefixOf_iff_prefix.mp h).length_le

theorem starts_with_lexeme_length_le {t : Tokenizer σ} {p : List Char}
    (h : t.starts_with_lexeme p = true) : p.length ≤ t.data.length := by
  unfold Tokenizer.starts_with_lexeme at h
  exact starts_with_length_le (Bool.and_elim_left h)

end Structural

section LexerRuns

set_option maxHeartbeats 2000000 in
/-- Each JSON state function only moves characters between the data, the
in-progress lexeme and the committed tokens. -/
theorem json_step_reconstruct (s : Json.JState) (t : Tokenizer Json.JState) :
    reconstruct (Json.step s t).2 = reconstruct t := by
  cases s <;> simp only [Json.step] <;> cases hc : t.current_char <;> (repeat' split) <;> simp

set_option maxHeartbeats 2000000 in
/-- Each XML state function only moves characters between the data, the
in-progress lexeme and the committed tokens. -/
theorem xml_step_reconstruct (s : Xml.XState) (t : Tokenizer Xml.XState) :
    reconstruct (Xml.step s t).2 = reconstruct t := by
  cases s <;> simp only [Xml.step] <;> cases hc : t.current_char <;> (repeat' split) <;>
    (try simp) <;> simp [reconstruct]

set_option maxHeartbeats 2000000 in
theorem ruby_initial_keywords_reconstruct {t : Tokenizer Ruby.RState}
    {r : Option Ruby.RState × Tokenizer Ruby.RState}
    (h : Ruby.initial_state_keywords t = some r) : reconstruct r.2 = reconstruct t := by
  unfold Ruby.initial_state_keywords at h
  by_cases h1 : t.starts_with_lexeme ("class".toList) = true
  · rw [if_pos h1] at h
    injection h with h
    subst h
    simp
  · rw [if_neg h1] at h
    by_cases h2 : t.starts_with_lexeme ("module".toList) = true
    · rw [if_pos h2] at h
      injection h with h
      subst h
      simp
    · rw [if_neg h2] at h
      by_cases h3 : t.starts_with_lexeme ("include".toList) = true
      · rw [if_pos h3] at h
        injection h with h
        subst h
        simp
      · rw [if_neg h3] at h
        by_cases h4 : t.starts_with_lexeme ("extend".toList) = true
        · rw [if_pos h4] at h
          injection h with h
          subst h
          simp
        · rw [if_neg h4] at h
          by_cases h5 : t.starts_with_lexeme ("def".toList) = true
          · rw [if_pos h5] at h
            injection h with h
            subst h
            simp
          · rw [if_neg h5] at h
            by_cases h6 : t.starts_with_lexeme ("do".toList) = true
            · rw [if_pos h6] at h
              injection h with h
              subst h
              simp
            · rw [if_neg h6] at h
              by_cases h7 : t.starts_with_lexeme ("if".toList) = true
              · rw [if_pos h7] at h
                injection h with h
                subst h
                simp
              · rw [if_neg h7] at h
                by_cases h8 : t.starts_with_lexeme ("unless".toList) = true
                · rw [if_pos h8] at h
                  injection h with h
                  subst h
                  simp
                · rw [if_neg h8] at h
                  by_cases h9 : t.starts_with_lexeme ("elsif".toList) = true
                  · rw [if_pos h9] at h
                    injection h with h
                    subst h
                    simp
                  · rw [if_neg h9] at h
                    by_cases h10 : t.starts_with_lexeme ("else".toList) = true
                    · rw [if_pos h10] at h
                      injection h with h
                      subst h
                      simp
                    · rw [if_neg h10] at h
                      by_cases h11 : t.starts_with_lexeme ("end".toList) = true
                      · rw [if_pos h11] at h
                        injection h with h
                        subst h
                        simp
                      · rw [if_neg h11] at h
                        by_cases h12 : t.starts_with_lexeme ("true".toList) = true
                        · rw [if_pos h12] at h
                          injection h with h
                          subst h
                          simp
                        · rw [if_neg h12] at h
                          by_cases h13 : t.starts_with_lexeme ("false".toList) = true
                          · rw [if_pos h13] at h
                            injection h with h
                            subst h
                            simp
                          · rw [if_neg h13] at h
                            by_cases h14 : t.starts_with_lexeme ("nil".toList) = true
                            · rw [if_pos h14] at h
                              injection h with h
                              subst h
                              simp
                            · rw [if_neg h14] at h
                              by_cases h15 : t.starts_with_lexeme ("private".toList) = true
                              · rw [if_pos h15] at h
                                injection h with h
                                subst h
                                simp
                              · rw [if_neg h15] at h
                                by_cases h16 : t.starts_with_lexeme ("begin".toList) = true
                                · rw [if_pos h16] at h
                                  injection h with h
                                  subst h
                                  simp
                                · rw [if_neg h16] at h
                                  by_cases h17 : t.starts_with_lexeme ("rescue".toList) = true
                                  · rw [if_pos h17] at h
                                    injection h with h
                                    subst h
                                    simp
                                  · rw [if_neg h17] at h
                                    by_cases h18 : t.starts_with_lexeme ("raise".toList) = true
                                    · rw [if_pos h18] at h
                                      injection h with h
                                      subst h
                                      simp
                                    · rw [if_neg h18] at h
                                      exact Option.noConfusion h

set_option maxHeartbeats 2000000 in
theorem ruby_initial_char_reconstruct (t : Tokenizer Ruby.RState) (c : Char) :
    reconstruct (Ruby.initial_state_char t c).2 = reconstruct t := by
  unfold Ruby.initial_state_char
  by_cases h1 : c = '"'
  · rw [if_pos h1]
    simp
  · rw [if_neg h1]
    by_cases h2 : c = '\''
    · rw [if_pos h2]
      simp
    · rw [if_neg h2]
      by_cases h3 : c = '#'
      · rw [if_pos h3]
        simp
      · rw [if_neg h3]
        by_cases h4 : c = '|'
        · rw [if_pos h4]
          simp
        · rw [if_neg h4]
          by_cases h5 : c = '.'
          · rw [if_pos h5]
            simp
          · rw [if_neg h5]
            by_cases h6 : c = '('
            · rw [if_pos h6]
              simp
            · rw [if_neg h6]
              by_cases h7 : c = '+'
              · rw [if_pos h7]
                simp
              · rw [if_neg h7]
                by_cases h8 : c = ' ' ∨ c = '\n'
                · rw [if_pos h8]
                  (repeat' split) <;> simp
                · rw [if_neg h8]
                  by_cases h9 : c = '='
                  · rw [if_pos h9]
                    simp
                  · rw [if_neg h9]
                    by_cases h10 : c = '@'
                    · rw [if_pos h10]
                      simp
                    · rw [if_neg h10]
                      by_cases h11 : c = '['
                      · rw [if_pos h11]
                        simp
                      · rw [if_neg h11]
                        by_cases h12 : c = ']'
                        · rw [if_pos h12]
                          simp
                        · rw [if_neg h12]
                          by_cases h13 : c = ':'
                          · rw [if_pos h13]
                            (repeat' split) <;> simp
                          · rw [if_neg h13]
                            by_cases h14 : c.isDigit = true
                            · rw [if_pos h14]
                              simp
                            · rw [if_neg h14]
                              simp

theorem ruby_initial_state_reconstruct (t : Tokenizer Ruby.RState) :
    reconstruct (Ruby.initial_state t).2 = reconstruct t := by
  unfold Ruby.initial_state
  cases hk : Ruby.initial_state_keywords t with
  | some r => exact ruby_initial_keywords_reconstruct hk
  | none =>
    cases hc : t.current_char with
    | some c => exact ruby_initial_char_reconstruct t c
    | none => simp

set_option maxHeartbeats 4000000 in
/-- Each Ruby state function only moves characters between the data, the
in-progress lexeme and the committed tokens. -/
theorem ruby_step_reconstruct (s : Ruby.RState) (t : Tokenizer Ruby.RState) :
    reconstruct (Ruby.step s t).2 = reconstruct t := by
  cases s
  case initial_state => exact ruby_initial_state_reconstruct t
  all_goals (
    simp only [Ruby.step, Ruby.inside_string, Ruby.inside_single_quote_string, Ruby.whitespace,
      Ruby.argument, Ruby.identifier, Ruby.method, Ruby.comment, Ruby.integer, Ruby.symbol] <;>
    (repeat' split) <;> (try simp) <;> simp [reconstruct])

set_option maxHeartbeats 2000000 in
/-- Each HTML-ERB carving state only moves characters between the data, the
in-progress lexeme and the committed tokens. -/
theorem erb_step_reconstruct (s : Erb.EState) (t : Tokenizer Erb.EState) :
    reconstruct (Erb.step s t).2 = reconstruct t := by
  cases s <;> simp only [Erb.step] <;> (repeat' split) <;> simp

set_option maxHeartbeats 2000000 in
/-- Each fallback-lexer state only moves characters between the data, the
in-progress lexeme and the committed tokens. -/
theorem default_step_reconstruct (s : Default.DState) (t : Tokenizer Default.DState) :
    reconstruct (Default.step s t).2 = reconstruct t := by
  cases s <;> simp only [Default.step] <;> cases hc : t.current_char <;> (repeat' split) <;> simp

/-- A completed JSON run returns a token list that concatenates to the full
content of the starting tokenizer. -/
theorem json_run_join (n : Nat) (s : Json.JState) (t : Tokenizer Json.JState)
    {ts : List Token} (h : Json.run n s t = some ts) : joinLexemes ts = reconstruct t := by
  induction n generalizing s t with
  | zero => cases h
  | succ n ih =>
    simp only [Json.run] at h
    cases hstep : Json.step s t with
    | mk os t2 =>
      rw [hstep] at h
      have hrec : reconstruct t2 = reconstruct t := by
        have h2 := json_step_reconstruct s t
        rw [hstep] at h2
        exact h2
      cases os with
      | some s2 =>
        rw [← hrec]
        exact ih s2 t2 h
      | none =>
        injection h with h
        subst h
        rw [joinLexemes_tokensList, hrec]

/-- A completed XML run returns a token list that concatenates to the full
content of the starting tokenizer. -/
theorem xml_run_join (n : Nat) (s : Xml.XState) (t : Tokenizer Xml.XState)
    {ts : List Token} (h : Xml.run n s t = some ts) : joinLexemes ts = reconstruct t := by
  induction n generalizing s t with
  | zero => cases h
  | succ n ih =>
    simp only [Xml.run] at h
    cases hstep : Xml.step s t with
    | mk os t2 =>
      rw [hstep] at h
      have hrec : reconstruct t2 = reconstruct t := by
        have h2 := xml_step_reconstruct s t
        rw [hstep] at h2
        exact h2
      cases os with
      | some s2 =>
        rw [← hrec]
        exact ih s2 t2 h
      | none =>
        injection h with h
        subst h
        rw [joinLexemes_tokensList, hrec]

/-- A completed fallback-lexer run returns a token list that concatenates to
the full content of the starting tokenizer. -/
theorem default_run_join (n : Nat) (s : Default.DState) (t : Tokenizer Default.DState)
    {ts : List Token} (h : Default.run n s t = some ts) : joinLexemes ts = reconstruct t := by
  induction n generalizing s t with
  | zero => cases h
  | succ n ih =>
    simp only [Default.run] at h
    cases hstep : Default.step s t with
    | mk os t2 =>
      rw [hstep] at h
      have hrec : reconstruct t2 = reconstruct t := by
        have h2 := default_step_reconstruct s t
        rw [hstep] at h2
        exact h2
      cases os with
      | some s2 =>
        rw [← hrec]
        exact ih s2 t2 h
      | none =>
        injection h with h
        subst h
        rw [joinLexemes_tokensList, hrec]

/-- A completed HTML-ERB carving run returns a token list that concatenates
to the full content of the starting tokenizer. -/
theorem erb_run_join (n : Nat) (s : Erb.EState) (t : Tokenizer Erb.EState)
    {ts : List Token} (h : Erb.run n s t = some ts) : joinLexemes ts = reconstruct t := by
  induction n generalizing s t with
  | zero => cases h
  | succ n ih =>
    simp only [Erb.run] at h
    cases hstep : Erb.step s t with
    | mk os t2 =>
      rw [hstep] at h
      have hrec : reconstruct t2 = reconstruct t := by
        have h2 := erb_step_reconstruct s t
        rw [hstep] at h2
        exact h2
      cases os with
      | some s2 =>
        rw [← hrec]
        exact ih s2 t2 h
      | none =>
        injection h with h
        subst h
        rw [joinLexemes_tokensList, hrec]

/-- A completed Ruby run (including the stack pops of its driving loop) ends
with a tokenizer holding the full content of the starting one. -/
theorem ruby_run_reconstruct (n : Nat) (s : Ruby.RState) (t : Tokenizer Ruby.RState)
    {sf : Ruby.RState} {tf : Tokenizer Ruby.RState} (h : Ruby.run n s t = some (sf, tf)) :
    reconstruct tf = reconstruct t := by
  induction n generalizing s t with
  | zero => cases h
  | succ n ih =>
    simp only [Ruby.run] at h
    cases hstep : Ruby.step s t with
    | mk os t2 =>
      rw [hstep] at h
      have hrec : reconstruct t2 = reconstruct t := by
        have h2 := ruby_step_reconstruct s t
        rw [hstep] at h2
        exact h2
      cases os with
      | some s2 =>
        rw [← hrec]
        exact ih s2 t2 h
      | none =>
        replace h : (match t2.states with
            | s2 :: rest => Ruby.run n s2 { t2 with states := rest }
            | [] => some (s, t2)) = some (sf, tf) := h
        cases hst : t2.states with
        | cons s2 rest =>
          rw [hst] at h
          rw [← hrec, ← states_set_reconstruct t2 rest]
          exact ih s2 _ h
        | nil =>
          rw [hst] at h
          injection h with h
          injection h with h1 h2
          subst h2
          exact hrec

theorem json_rank_le (s : Json.JState) : Json.rank s ≤ 1 := by
  cases s <;> simp [Json.rank]

set_option maxHeartbeats 2000000 in
/-- Every JSON state transition strictly decreases the loop measure
2·|data| + rank. -/
theorem json_step_mu (s : Json.JState) (t : Tokenizer Json.JState) {s2 : Json.JState}
    {t2 : Tokenizer Json.JState} (h : Json.step s t = (some s2, t2)) :
    2 * t2.data.length + Json.rank s2 < 2 * t.data.length + Json.rank s := by
  have hr2 := json_rank_le s2
  cases s <;> simp only [Json.step] at h <;> cases hc : t.current_char <;> simp only [hc] at h
  case initial_state.none =>
    injection h with hs ht
    exact Option.noConfusion hs
  case initial_state.some c =>
    have hd := current_char_some hc
    have hd1 : 1 ≤ t.data.length := by rw [hd]; simp
    split_ifs at h <;>
      (injection h with hs ht; injection hs with hs; subst hs; subst ht;
       simp only [tokenize_next_data, List.length_drop, advance_data_tail, tokenize_data,
         List.length_tail];
       simp only [Json.rank];
       omega)
  case inside_string.none =>
    injection h with hs ht
    exact Option.noConfusion hs
  case inside_string.some c =>
    have hd := current_char_some hc
    have hd1 : 1 ≤ t.data.length := by rw [hd]; simp
    split_ifs at h <;>
      (injection h with hs ht; injection hs with hs; subst hs; subst ht;
       simp only [tokenize_next_data, List.length_drop, advance_data_tail, tokenize_data,
         List.length_tail];
       simp only [Json.rank];
       omega)
  case whitespace.none =>
    injection h with hs ht
    exact Option.noConfusion hs
  case whitespace.some c =>
    have hd := current_char_some hc
    have hd1 : 1 ≤ t.data.length := by rw [hd]; simp
    split_ifs at h <;>
      (injection h with hs ht; injection hs with hs; subst hs; subst ht;
       simp only [tokenize_next_data, List.length_drop, advance_data_tail, tokenize_data,
         List.length_tail];
       simp only [Json.rank];
       omega)

/-- Any fuel above the measure suffices for the JSON driving loop. -/
theorem json_run_isSome (n : Nat) (s : Json.JState) (t : Tokenizer Json.JState)
    (h : 2 * t.data.length + Json.rank s < n) : (Json.run n s t).isSome := by
  induction n generalizing s t with
  | zero => omega
  | succ n ih =>
    simp only [Json.run]
    cases hstep : Json.step s t with
    | mk os t2 =>
      cases os with
      | none => simp
      | some s2 =>
        have hmu := json_step_mu s t hstep
        exact ih s2 t2 (by omega)

theorem default_rank_le (s : Default.DState) : Default.rank s ≤ 1 := by
  cases s <;> simp [Default.rank]

set_option maxHeartbeats 2000000 in
/-- Every fallback-lexer state transition strictly decreases the loop measure
2·|data| + rank. -/
theorem default_step_mu (s : Default.DState) (t : Tokenizer Default.DState)
    {s2 : Default.DState} {t2 : Tokenizer Default.DState}
    (h : Default.step s t = (some s2, t2)) :
    2 * t2.data.length + Default.rank s2 < 2 * t.data.length + Default.rank s := by
  have hr2 := default_rank_le s2
  cases s <;> simp only [Default.step] at h <;> cases hc : t.current_char <;> simp only [hc] at h
  all_goals
    first
    | (injection h with hs ht; exact Option.noConfusion hs)
    | (have hd := current_char_some hc
       have hd1 : 1 ≤ t.data.length := by rw [hd]; simp
       split_ifs at h <;>
         (injection h with hs ht; injection hs with hs; subst hs; subst ht;
          simp only [advance_data_tail, tokenize_data, List.length_tail];
          simp only [Default.rank];
          omega))

/-- Any fuel above the measure suffices for the fallback driving loop. -/
theorem default_run_isSome (n : Nat) (s : Default.DState) (t : Tokenizer Default.DState)
    (h : 2 * t.data.length + Default.rank s < n) : (Default.run n s t).isSome := by
  induction n generalizing s t with
  | zero => omega
  | succ n ih =>
    simp only [Default.run]
    cases hstep : Default.step s t with
    | mk os t2 =>
      cases os with
      | none => simp
      | some s2 =>
        have hmu := default_step_mu s t hstep
        exact ih s2 t2 (by omega)

set_option maxHeartbeats 2000000 in
/-- Every HTML-ERB carving transition strictly consumes input. -/
theorem erb_step_mu (s : Erb.EState) (t : Tokenizer Erb.EState) {s2 : Erb.EState}
    {t2 : Tokenizer Erb.EState} (h : Erb.step s t = (some s2, t2)) :
    t2.data.length < t.data.length := by
  cases s <;> simp only [Erb.step] at h
  case initial_state =>
    by_cases h1 : t.starts_with ("<%=".toList) = true
    · rw [if_pos h1] at h
      injection h with hs ht
      subst ht
      have h3 := starts_with_length_le h1
      simp only [tokenize_next_data, List.length_drop]
      simp at h3
      omega
    · rw [if_neg h1] at h
      by_cases h2 : t.starts_with ("<%".toList) = true
      · rw [if_pos h2] at h
        injection h with hs ht
        subst ht
        have h3 := starts_with_length_le h2
        simp only [tokenize_next_data, List.length_drop]
        simp at h3
        omega
      · rw [if_neg h2] at h
        cases hc : t.current_char with
        | none =>
          simp only [hc] at h
          injection h with hs ht
          exact Option.noConfusion hs
        | some c =>
          simp only [hc] at h
          injection h with hs ht
          subst ht
          have hd := current_char_some hc
          rw [advance_data_tail, hd]
          simp
  case ruby =>
    by_cases h1 : t.starts_with ("%>".toList) = true
    · rw [if_pos h1] at h
      injection h with hs ht
      subst ht
      have h3 := starts_with_length_le h1
      simp only [tokenize_next_data, tokenize_data, List.length_drop]
      simp at h3
      omega
    · rw [if_neg h1] at h
      cases hc : t.current_char with
      | none =>
        simp only [hc] at h
        injection h with hs ht
        exact Option.noConfusion hs
      | some c =>
        simp only [hc] at h
        injection h with hs ht
        subst ht
        have hd := current_char_some hc
        rw [advance_data_tail, hd]
        simp

/-- Any fuel above the remaining input length suffices for the HTML-ERB
carving loop. -/
theorem erb_run_isSome (n : Nat) (s : Erb.EState) (t : Tokenizer Erb.EState)
    (h : t.data.length < n) : (Erb.run n s t).isSome := by
  induction n generalizing s t with
  | zero => omega
  | succ n ih =>
    simp only [Erb.run]
    cases hstep : Erb.step s t with
    | mk os t2 =>
      cases os with
      | none => simp
      | some s2 =>
        have hmu := erb_step_mu s t hstep
        exact ih s2 t2 (by omega)

theorem xml_rank_le (s : Xml.XState) (oc : Option Char) : Xml.rank s oc ≤ 3 := by
  cases s <;> cases oc <;> simp [Xml.rank] <;> split_ifs <;> omega

theorem xml_mu_consume {d2 d1 st2 st1 : Nat} (s2 : Xml.XState) (oc2 : Option Char)
    (r1 : Nat) (hlen : d2 < d1) (hst : st2 ≤ st1 + 1) :
    8 * d2 + 2 * st2 + Xml.rank s2 oc2 < 8 * d1 + 2 * st1 + r1 := by
  have h2 := xml_rank_le s2 oc2
  omega

set_option maxHeartbeats 2000000 in
/-- Every XML state transition strictly decreases the loop measure
8·|data| + 2·|stack| + rank. -/
theorem xml_step_mu (s : Xml.XState) (t : Tokenizer Xml.XState) {s2 : Xml.XState}
    {t2 : Tokenizer Xml.XState} (h : Xml.step s t = (some s2, t2)) :
    8 * t2.data.length + 2 * t2.states.length + Xml.rank s2 t2.current_char
      < 8 * t.data.length + 2 * t.states.length + Xml.rank s t.current_char := by
  cases s
  case initial_state =>
    cases hc : t.current_char with
    | none =>
      simp only [Xml.step, hc] at h
      injection h with hs ht
      exact Option.noConfusion hs
    | some c =>
      have hd := current_char_some hc
      have hd1 : 1 ≤ t.data.length := by rw [hd]; simp
      simp only [Xml.step, hc] at h
      split_ifs at h <;>
        (injection h with hs ht; injection hs with hs; subst hs; subst ht;
         apply xml_mu_consume _ _ _ <;>
           simp only [tokenize_next_data, tokenize_next_states, List.length_drop,
             advance_data_tail, advance_states, tokenize_data, tokenize_states,
             List.length_tail, push_state_data, push_state_states, List.length_cons] <;>
           omega)
  case start_of_tag =>
    cases hc : t.current_char with
    | none =>
      simp only [Xml.step, hc] at h
      injection h with hs ht
      exact Option.noConfusion hs
    | some c =>
      have hd := current_char_some hc
      have hd1 : 1 ≤ t.data.length := by rw [hd]; simp
      simp only [Xml.step, hc] at h
      split_ifs at h with h1 h2
      · injection h with hs ht
        injection hs with hs
        subst hs
        subst ht
        have hw : Tokenizer.wsChar c = true := by
          rcases h1 with rfl | rfl <;> rfl
        simp only [push_state_data, push_state_states, push_state_current_char,
          tokenize_data, tokenize_states, tokenize_current_char, List.length_cons, hc]
        simp [Xml.rank, hw]
        omega
      · injection h with hs ht
        injection hs with hs
        subst hs
        subst ht
        apply xml_mu_consume _ _ _ <;>
          simp only [tokenize_next_data, tokenize_next_states, List.length_drop,
            tokenize_data, tokenize_states] <;>
          omega
      · injection h with hs ht
        injection hs with hs
        subst hs
        subst ht
        apply xml_mu_consume _ _ _ <;>
          simp only [advance_data_tail, advance_states, List.length_tail] <;>
          omega
  case inside_tag =>
    cases hc : t.current_char with
    | none =>
      simp only [Xml.step, hc] at h
      injection h with hs ht
      exact Option.noConfusion hs
    | some c =>
      have hd := current_char_some hc
      have hd1 : 1 ≤ t.data.length := by rw [hd]; simp
      simp only [Xml.step, hc] at h
      split_ifs at h <;>
        (injection h with hs ht; injection hs with hs; subst hs; subst ht;
         apply xml_mu_consume _ _ _ <;>
           simp only [tokenize_next_data, tokenize_next_states, List.length_drop,
             advance_data_tail, advance_states, tokenize_data, tokenize_states,
             List.length_tail, push_state_data, push_state_states, List.length_cons] <;>
           omega)
  case inside_string =>
    cases hc : t.current_char with
    | none =>
      simp only [Xml.step, hc] at h
      injection h with hs ht
      exact Option.noConfusion hs
    | some c =>
      have hd := current_char_some hc
      have hd1 : 1 ≤ t.data.length := by rw [hd]; simp
      simp only [Xml.step, hc] at h
      split_ifs at h <;>
        (injection h with hs ht; injection hs with hs; subst hs; subst ht;
         apply xml_mu_consume _ _ _ <;>
           simp only [advance_data_tail, advance_states, tokenize_data, tokenize_states,
             List.length_tail] <;>
           omega)
  case whitespace =>
    cases hc : t.current_char with
    | none =>
      simp only [Xml.step, hc] at h
      injection h with hs ht
      exact Option.noConfusion hs
    | some c =>
      have hd := current_char_some hc
      have hd1 : 1 ≤ t.data.length := by rw [hd]; simp
      simp only [Xml.step, hc] at h
      split_ifs at h with h1
      · injection h with hs ht
        injection hs with hs
        subst hs
        subst ht
        apply xml_mu_consume _ _ _ <;>
          simp only [advance_data_tail, advance_states, List.length_tail] <;>
          omega
      · have hw : Tokenizer.wsChar c = false := by
          push_neg at h1
          simp [Tokenizer.wsChar, h1.1, h1.2]
        cases hst : (t.tokenize Category.Whitespace).states with
        | cons s3 rest =>
          simp only [hst] at h
          injection h with hs ht
          injection hs with hs
          subst hs
          subst ht
          rw [tokenize_states] at hst
          have hc3 : t.data.head? = some c := hc
          have hr3 := xml_rank_le s3 (some c)
          have hr1 : Xml.rank Xml.XState.whitespace (some c) = 2 := by
            simp [Xml.rank, hw]
          simp only [current_char_mk, states_set_data, states_set_states,
            states_set_current_char, tokenize_data, tokenize_states, tokenize_current_char,
            hc3, hc, hst, List.length_cons, hr1]
          omega
        | nil =>
          simp only [hst] at h
          injection h with hs ht
          injection hs with hs
          subst hs
          subst ht
          rw [tokenize_states] at hst
          have hr1 : Xml.rank Xml.XState.whitespace (some c) = 2 := by
            simp [Xml.rank, hw]
          have hr0 : Xml.rank Xml.XState.initial_state (some c) = 0 := by
            simp [Xml.rank]
          simp only [tokenize_data, tokenize_states, tokenize_current_char, hc, hst,
            List.length_nil, hr1, hr0]
          omega

/-- Any fuel above the measure suffices for the XML driving loop. -/
theorem xml_run_isSome (n : Nat) (s : Xml.XState) (t : Tokenizer Xml.XState)
    (h : 8 * t.data.length + 2 * t.states.length + Xml.rank s t.current_char < n) :
    (Xml.run n s t).isSome := by
  induction n generalizing s t with
  | zero => omega
  | succ n ih =>
    simp only [Xml.run]
    cases hstep : Xml.step s t with
    | mk os t2 =>
      cases os with
      | none => simp
      | some s2 =>
        have hmu := xml_step_mu s t hstep
        exact ih s2 t2 (by omega)

theorem ruby_rank_le (s : Ruby.RState) (oc : Option Char) : Ruby.rank s oc ≤ 3 := by
  cases s <;> cases oc <;> simp [Ruby.rank] <;> split_ifs <;> omega

theorem ruby_rank_none (s : Ruby.RState) : Ruby.rank s none = 0 := by
  cases s <;> simp [Ruby.rank]

theorem ruby_rank_initial_le (oc : Option Char) :
    Ruby.rank Ruby.RState.initial_state oc ≤ 1 := by
  cases oc <;> simp [Ruby.rank] <;> split_ifs <;> omega

theorem ruby_mu_consume {d2 d1 st2 st1 : Nat} (s2 : Ruby.RState) (oc2 : Option Char)
    (r1 : Nat) (hlen : d2 < d1) (hst : st2 ≤ st1 + 1) :
    8 * d2 + 2 * st2 + Ruby.rank s2 oc2 < 8 * d1 + 2 * st1 + r1 := by
  have h2 := ruby_rank_le s2 oc2
  omega

set_option maxHeartbeats 2000000 in
/-- Every keyword-chain transition of the Ruby lexer consumes input, pushes at
most one state, and always selects a next state. -/
theorem ruby_keywords_facts {t : Tokenizer Ruby.RState}
    {r : Option Ruby.RState × Tokenizer Ruby.RState}
    (h : Ruby.initial_state_keywords t = some r) :
    r.2.data.length < t.data.length ∧ r.2.states.length ≤ t.states.length + 1 ∧
      r.1.isSome := by
  unfold Ruby.initial_state_keywords at h
  by_cases h1 : t.starts_with_lexeme ("class".toList) = true
  · rw [if_pos h1] at h
    injection h with h
    subst h
    have hl := starts_with_lexeme_length_le h1
    simp at hl
    refine ⟨?_, ?_, ?_⟩ <;>
      simp only [tokenize_next_data, tokenize_next_states, push_state_data,
        push_state_states, List.length_drop, List.length_cons, Option.isSome_some] <;>
      omega
  · rw [if_neg h1] at h
    by_cases h2 : t.starts_with_lexeme ("module".toList) = true
    · rw [if_pos h2] at h
      injection h with h
      subst h
      have hl := starts_with_lexeme_length_le h2
      simp at hl
      refine ⟨?_, ?_, ?_⟩ <;>
        simp only [tokenize_next_data, tokenize_next_states, push_state_data,
          push_state_states, List.length_drop, List.length_cons, Option.isSome_some] <;>
        omega
    · rw [if_neg h2] at h
      by_cases h3 : t.starts_with_lexeme ("include".toList) = true
      · rw [if_pos h3] at h
        injection h with h
        subst h
        have hl := starts_with_lexeme_length_le h3
        simp at hl
        refine ⟨?_, ?_, ?_⟩ <;>
          simp only [tokenize_next_data, tokenize_next_states, push_state_data,
            push_state_states, List.length_drop, List.length_cons, Option.isSome_some] <;>
          omega
      · rw [if_neg h3] at h
        by_cases h4 : t.starts_with_lexeme ("extend".toList) = true
        · rw [if_pos h4] at h
          injection h with h
          subst h
          have hl := starts_with_lexeme_length_le h4
          simp at hl
          refine ⟨?_, ?_, ?_⟩ <;>
            simp only [tokenize_next_data, tokenize_next_states, push_state_data,
              push_state_states, List.length_drop, List.length_cons, Option.isSome_some] <;>
            omega
        · rw [if_neg h4] at h
          by_cases h5 : t.starts_with_lexeme ("def".toList) = true
          · rw [if_pos h5] at h
            injection h with h
            subst h
            have hl := starts_with_lexeme_length_le h5
            simp at hl
            refine ⟨?_, ?_, ?_⟩ <;>
              simp only [tokenize_next_data, tokenize_next_states, push_state_data,
                push_state_states, List.length_drop, List.length_cons, Option.isSome_some] <;>
              omega
          · rw [if_neg h5] at h
            by_cases h6 : t.starts_with_lexeme ("do".toList) = true
            · rw [if_pos h6] at h
              injection h with h
              subst h
              have hl := starts_with_lexeme_length_le h6
              simp at hl
              refine ⟨?_, ?_, ?_⟩ <;>
                simp only [tokenize_next_data, tokenize_next_states, push_state_data,
                  push_state_states, List.length_drop, List.length_cons, Option.isSome_some] <;>
                omega
            · rw [if_neg h6] at h
              by_cases h7 : t.starts_with_lexeme ("if".toList) = true
              · rw [if_pos h7] at h
                injection h with h
                subst h
                have hl := starts_with_lexeme_length_le h7
                simp at hl
                refine ⟨?_, ?_, ?_⟩ <;>
                  simp only [tokenize_next_data, tokenize_next_states, push_state_data,
                    push_state_states, List.length_drop, List.length_cons, Option.isSome_some] <;>
                  omega
              · rw [if_neg h7] at h
                by_cases h8 : t.starts_with_lexeme ("unless".toList) = true
                · rw [if_pos h8] at h
                  injection h with h
                  subst h
                  have hl := starts_with_lexeme_length_le h8
                  simp at hl
                  refine ⟨?_, ?_, ?_⟩ <;>
                    simp only [tokenize_next_data, tokenize_next_states, push_state_data,
                      push_state_states, List.length_drop, List.length_cons, Option.isSome_some] <;>
                    omega
                · rw [if_neg h8] at h
                  by_cases h9 : t.starts_with_lexeme ("elsif".toList) = true
                  · rw [if_pos h9] at h
                    injection h with h
                    subst h
                    have hl := starts_with_lexeme_length_le h9
                    simp at hl
                    refine ⟨?_, ?_, ?_⟩ <;>
                      simp only [tokenize_next_data, tokenize_next_states, push_state_data,
                        push_state_states, List.length_drop, List.length_cons, Option.isSome_some] <;>
                      omega
                  · rw [if_neg h9] at h
                    by_cases h10 : t.starts_with_lexeme ("else".toList) = true
                    · rw [if_pos h10] at h
                      injection h with h
                      subst h
                      have hl := starts_with_lexeme_length_le h10
                      simp at hl
                      refine ⟨?_, ?_, ?_⟩ <;>
                        simp only [tokenize_next_data, tokenize_next_states, push_state_data,
                          push_state_states, List.length_drop, List.length_cons, Option.isSome_some] <;>
                        omega
                    · rw [if_neg h10] at h
                      by_cases h11 : t.starts_with_lexeme ("end".toList) = true
                      · rw [if_pos h11] at h
                        injection h with h
                        subst h
                        have hl := starts_with_lexeme_length_le h11
                        simp at hl
                        refine ⟨?_, ?_, ?_⟩ <;>
                          simp only [tokenize_next_data, tokenize_next_states, push_state_data,
                            push_state_states, List.length_drop, List.length_cons, Option.isSome_some] <;>
                          omega
                      · rw [if_neg h11] at h
                        by_cases h12 : t.starts_with_lexeme ("true".toList) = true
                        · rw [if_pos h12] at h
                          injection h with h
                          subst h
                          have hl := starts_with_lexeme_length_le h12
                          simp at hl
                          refine ⟨?_, ?_, ?_⟩ <;>
                            simp only [tokenize_next_data, tokenize_next_states, push_state_data,
                              push_state_states, List.length_drop, List.length_cons, Option.isSome_some] <;>
                            omega
                        · rw [if_neg h12] at h
                          by_cases h13 : t.starts_with_lexeme ("false".toList) = true
                          · rw [if_pos h13] at h
                            injection h with h
                            subst h
                            have hl := starts_with_lexeme_length_le h13
                            simp at hl
                            refine ⟨?_, ?_, ?_⟩ <;>
                              simp only [tokenize_next_data, tokenize_next_states, push_state_data,
                                push_state_states, List.length_drop, List.length_cons, Option.isSome_some] <;>
                              omega
                          · rw [if_neg h13] at h
                            by_cases h14 : t.starts_with_lexeme ("nil".toList) = true
                            · rw [if_pos h14] at h
                              injection h with h
                              subst h
                              have hl := starts_with_lexeme_length_le h14
                              simp at hl
                              refine ⟨?_, ?_, ?_⟩ <;>
                                simp only [tokenize_next_data, tokenize_next_states, push_state_data,
                                  push_state_states, List.length_drop, List.length_cons, Option.isSome_some] <;>
                                omega
                            · rw [if_neg h14] at h
                              by_cases h15 : t.starts_with_lexeme ("private".toList) = true
                              · rw [if_pos h15] at h
                                injection h with h
                                subst h
                                have hl := starts_with_lexeme_length_le h15
                                simp at hl
                                refine ⟨?_, ?_, ?_⟩ <;>
                                  simp only [tokenize_next_data, tokenize_next_states, push_state_data,
                                    push_state_states, List.length_drop, List.length_cons, Option.isSome_some] <;>
                                  omega
                              · rw [if_neg h15] at h
                                by_cases h16 : t.starts_with_lexeme ("begin".toList) = true
                                · rw [if_pos h16] at h
                                  injection h with h
                                  subst h
                                  have hl := starts_with_lexeme_length_le h16
                                  simp at hl
                                  refine ⟨?_, ?_, ?_⟩ <;>
                                    simp only [tokenize_next_data, tokenize_next_states, push_state_data,
                                      push_state_states, List.length_drop, List.length_cons, Option.isSome_some] <;>
                                    omega
                                · rw [if_neg h16] at h
                                  by_cases h17 : t.starts_with_lexeme ("rescue".toList) = true
                                  · rw [if_pos h17] at h
                                    injection h with h
                                    subst h
                                    have hl := starts_with_lexeme_length_le h17
                                    simp at hl
                                    refine ⟨?_, ?_, ?_⟩ <;>
                                      simp only [tokenize_next_data, tokenize_next_states, push_state_data,
                                        push_state_states, List.length_drop, List.length_cons, Option.isSome_some] <;>
                                      omega
                                  · rw [if_neg h17] at h
                                    by_cases h18 : t.starts_with_lexeme ("raise".toList) = true
                                    · rw [if_pos h18] at h
                                      injection h with h
                                      subst h
                                      have hl := starts_with_lexeme_length_le h18
                                      simp at hl
                                      refine ⟨?_, ?_, ?_⟩ <;>
                                        simp only [tokenize_next_data, tokenize_next_states, push_state_data,
                                          push_state_states, List.length_drop, List.length_cons, Option.isSome_some] <;>
                                        omega
                                    · rw [if_neg h18] at h
                                      exact Option.noConfusion h

set_option maxHeartbeats 2000000 in
/-- The character dispatch of the Ruby lexer's initial state always selects a
next state (it never ends the pass). -/
theorem ruby_char_isSome (t : Tokenizer Ruby.RState) (c : Char) :
    (Ruby.initial_state_char t c).1.isSome := by
  unfold Ruby.initial_state_char
  by_cases h1 : c = '"'
  · rw [if_pos h1]
    simp
  · rw [if_neg h1]
    by_cases h2 : c = '\''
    · rw [if_pos h2]
      simp
    · rw [if_neg h2]
      by_cases h3 : c = '#'
      · rw [if_pos h3]
        simp
      · rw [if_neg h3]
        by_cases h4 : c = '|'
        · rw [if_pos h4]
          simp
        · rw [if_neg h4]
          by_cases h5 : c = '.'
          · rw [if_pos h5]
            simp
          · rw [if_neg h5]
            by_cases h6 : c = '('
            · rw [if_pos h6]
              simp
            · rw [if_neg h6]
              by_cases h7 : c = '+'
              · rw [if_pos h7]
                simp
              · rw [if_neg h7]
                by_cases h8 : c = ' ' ∨ c = '\n'
                · rw [if_pos h8]
                  simp
                · rw [if_neg h8]
                  by_cases h9 : c = '='
                  · rw [if_pos h9]
                    simp
                  · rw [if_neg h9]
                    by_cases h10 : c = '@'
                    · rw [if_pos h10]
                      simp
                    · rw [if_neg h10]
                      by_cases h11 : c = '['
                      · rw [if_pos h11]
                        simp
                      · rw [if_neg h11]
                        by_cases h12 : c = ']'
                        · rw [if_pos h12]
                          simp
                        · rw [if_neg h12]
                          by_cases h13 : c = ':'
                          · rw [if_pos h13]
                            split_ifs <;> simp
                          · rw [if_neg h13]
                            by_cases h14 : c.isDigit = true
                            · rw [if_pos h14]
                              simp
                            · rw [if_neg h14]
                              simp

set_option maxHeartbeats 2000000 in
/-- Every character-dispatch transition of the Ruby lexer's initial state
strictly decreases the loop measure 8·|data| + 2·|stack| + rank. -/
theorem ruby_char_mu {t : Tokenizer Ruby.RState} {c : Char}
    (hc : t.current_char = some c) {s2 : Ruby.RState} {t2 : Tokenizer Ruby.RState}
    (h : Ruby.initial_state_char t c = (some s2, t2)) :
    8 * t2.data.length + 2 * t2.states.length + Ruby.rank s2 t2.current_char
      < 8 * t.data.length + 2 * t.states.length +
          Ruby.rank Ruby.RState.initial_state (some c) := by
  unfold Ruby.initial_state_char at h
  have hd := current_char_some hc
  have hd1 : 1 ≤ t.data.length := by rw [hd]; simp
  by_cases h1 : c = '"'
  · rw [if_pos h1] at h
    injection h with hs ht
    injection hs with hs
    subst hs
    subst ht
    apply ruby_mu_consume _ _ _
    all_goals (try simp only [advance_data_tail, advance_states, tokenize_data,
      tokenize_states, tokenize_next_data, tokenize_next_states, push_state_data,
      push_state_states, List.length_drop, List.length_tail, List.length_cons])
    all_goals omega
  · rw [if_neg h1] at h
    by_cases h2 : c = '\''
    · rw [if_pos h2] at h
      injection h with hs ht
      injection hs with hs
      subst hs
      subst ht
      apply ruby_mu_consume _ _ _
      all_goals (try simp only [advance_data_tail, advance_states, tokenize_data,
        tokenize_states, tokenize_next_data, tokenize_next_states, push_state_data,
        push_state_states, List.length_drop, List.length_tail, List.length_cons])
      all_goals omega
    · rw [if_neg h2] at h
      by_cases h3 : c = '#'
      · rw [if_pos h3] at h
        injection h with hs ht
        injection hs with hs
        subst hs
        subst ht
        apply ruby_mu_consume _ _ _
        all_goals (try simp only [advance_data_tail, advance_states, tokenize_data,
          tokenize_states, tokenize_next_data, tokenize_next_states, push_state_data,
          push_state_states, List.length_drop, List.length_tail, List.length_cons])
        all_goals omega
      · rw [if_neg h3] at h
        by_cases h4 : c = '|'
        · rw [if_pos h4] at h
          injection h with hs ht
          injection hs with hs
          subst hs
          subst ht
          apply ruby_mu_consume _ _ _
          all_goals (try simp only [advance_data_tail, advance_states, tokenize_data,
            tokenize_states, tokenize_next_data, tokenize_next_states, push_state_data,
            push_state_states, List.length_drop, List.length_tail, List.length_cons])
          all_goals omega
        · rw [if_neg h4] at h
          by_cases h5 : c = '.'
          · rw [if_pos h5] at h
            injection h with hs ht
            injection hs with hs
            subst hs
            subst ht
            apply ruby_mu_consume _ _ _
            all_goals (try simp only [advance_data_tail, advance_states, tokenize_data,
              tokenize_states, tokenize_next_data, tokenize_next_states, push_state_data,
              push_state_states, List.length_drop, List.length_tail, List.length_cons])
            all_goals omega
          · rw [if_neg h5] at h
            by_cases h6 : c = '('
            · rw [if_pos h6] at h
              injection h with hs ht
              injection hs with hs
              subst hs
              subst ht
              apply ruby_mu_consume _ _ _
              all_goals (try simp only [advance_data_tail, advance_states, tokenize_data,
                tokenize_states, tokenize_next_data, tokenize_next_states, push_state_data,
                push_state_states, List.length_drop, List.length_tail, List.length_cons])
              all_goals omega
            · rw [if_neg h6] at h
              by_cases h7 : c = '+'
              · rw [if_pos h7] at h
                injection h with hs ht
                injection hs with hs
                subst hs
                subst ht
                apply ruby_mu_consume _ _ _
                all_goals (try simp only [advance_data_tail, advance_states, tokenize_data,
                  tokenize_states, tokenize_next_data, tokenize_next_states, push_state_data,
                  push_state_states, List.length_drop, List.length_tail, List.length_cons])
                all_goals omega
              · rw [if_neg h7] at h
                by_cases h8 : c = ' ' ∨ c = '\n'
                · rw [if_pos h8] at h
                  have hw : Tokenizer.wsChar c = true := by
                    rcases h8 with rfl | rfl <;> rfl
                  have hcw := consume_whitespace_data_lt (t := t) hc hw
                  by_cases hnn : t.next_non_whitespace_char = some '='
                  · rw [if_pos hnn] at h
                    injection h with hs ht
                    injection hs with hs
                    subst hs
                    subst ht
                    have hcwt := consume_whitespace_data_lt
                      (t := t.tokenize Category.Identifier) (c := c)
                      (by rw [tokenize_current_char]; exact hc) hw
                    rw [tokenize_data] at hcwt
                    apply ruby_mu_consume _ _ _
                    all_goals (try simp only [tokenize_next_data, tokenize_next_states,
                      List.length_drop, consume_whitespace_states, tokenize_states])
                    all_goals omega
                  · rw [if_neg hnn] at h
                    injection h with hs ht
                    injection hs with hs
                    subst hs
                    subst ht
                    apply ruby_mu_consume _ _ _
                    all_goals (try simp only [consume_whitespace_states])
                    all_goals omega
                · rw [if_neg h8] at h
                  by_cases h9 : c = '='
                  · rw [if_pos h9] at h
                    injection h with hs ht
                    injection hs with hs
                    subst hs
                    subst ht
                    apply ruby_mu_consume _ _ _
                    all_goals (try simp only [advance_data_tail, advance_states, tokenize_data,
                      tokenize_states, tokenize_next_data, tokenize_next_states, push_state_data,
                      push_state_states, List.length_drop, List.length_tail, List.length_cons])
                    all_goals omega
                  · rw [if_neg h9] at h
                    by_cases h10 : c = '@'
                    · rw [if_pos h10] at h
                      injection h with hs ht
                      injection hs with hs
                      subst hs
                      subst ht
                      subst h10
                      simp only [tokenize_data, tokenize_states, tokenize_current_char, hc]
                      simp [Ruby.rank, Tokenizer.wsChar] <;> omega
                    · rw [if_neg h10] at h
                      by_cases h11 : c = '['
                      · rw [if_pos h11] at h
                        injection h with hs ht
                        injection hs with hs
                        subst hs
                        subst ht
                        apply ruby_mu_consume _ _ _
                        all_goals (try simp only [advance_data_tail, advance_states, tokenize_data,
                          tokenize_states, tokenize_next_data, tokenize_next_states, push_state_data,
                          push_state_states, List.length_drop, List.length_tail, List.length_cons])
                        all_goals omega
                      · rw [if_neg h11] at h
                        by_cases h12 : c = ']'
                        · rw [if_pos h12] at h
                          injection h with hs ht
                          injection hs with hs
                          subst hs
                          subst ht
                          apply ruby_mu_consume _ _ _
                          all_goals (try simp only [advance_data_tail, advance_states, tokenize_data,
                            tokenize_states, tokenize_next_data, tokenize_next_states, push_state_data,
                            push_state_states, List.length_drop, List.length_tail, List.length_cons])
                          all_goals omega
                        · rw [if_neg h12] at h
                          by_cases h13 : c = ':'
                          · rw [if_pos h13] at h
                            by_cases hp : t.starts_with (": ".toList) = true
                            · rw [if_pos hp] at h
                              injection h with hs ht
                              injection hs with hs
                              subst hs
                              subst ht
                              have hle := consume_whitespace_data_le
                                ((t.tokenize Category.Literal).tokenize_next 1 Category.Text)
                              simp only [tokenize_next_data, tokenize_data, List.length_drop] at hle
                              apply ruby_mu_consume _ _ _
                              all_goals (try simp only [consume_whitespace_states,
                                tokenize_next_states, tokenize_states])
                              all_goals omega
                            · rw [if_neg hp] at h
                              injection h with hs ht
                              injection hs with hs
                              subst hs
                              subst ht
                              apply ruby_mu_consume _ _ _
                              all_goals (try simp only [advance_data_tail, advance_states,
                                List.length_tail])
                              all_goals omega
                          · rw [if_neg h13] at h
                            by_cases h14 : c.isDigit = true
                            · rw [if_pos h14] at h
                              injection h with hs ht
                              injection hs with hs
                              subst hs
                              subst ht
                              apply ruby_mu_consume _ _ _
                              all_goals (try simp only [advance_data_tail, advance_states, tokenize_data,
                                tokenize_states, tokenize_next_data, tokenize_next_states, push_state_data,
                                push_state_states, List.length_drop, List.length_tail, List.length_cons])
                              all_goals omega
                            · rw [if_neg h14] at h
                              injection h with hs ht
                              injection hs with hs
                              subst hs
                              subst ht
                              apply ruby_mu_consume _ _ _
                              all_goals (try simp only [advance_data_tail, advance_states, tokenize_data,
                                tokenize_states, tokenize_next_data, tokenize_next_states, push_state_data,
                                push_state_states, List.length_drop, List.length_tail, List.length_cons])
                              all_goals omega

set_option maxHeartbeats 4000000 in
/-- Every Ruby state transition strictly decreases the loop measure
8·|data| + 2·|stack| + rank. -/
theorem ruby_step_mu (s : Ruby.RState) (t : Tokenizer Ruby.RState) {s2 : Ruby.RState}
    {t2 : Tokenizer Ruby.RState} (h : Ruby.step s t = (some s2, t2)) :
    8 * t2.data.length + 2 * t2.states.length + Ruby.rank s2 t2.current_char
      < 8 * t.data.length + 2 * t.states.length + Ruby.rank s t.current_char := by
  cases s
  case initial_state =>
    simp only [Ruby.step, Ruby.initial_state] at h
    cases hk : Ruby.initial_state_keywords t with
    | some r =>
      simp only [hk] at h
      obtain ⟨f1, f2, -⟩ := ruby_keywords_facts hk
      rw [h] at f1 f2
      exact ruby_mu_consume s2 _ _ f1 f2
    | none =>
      simp only [hk] at h
      cases hc : t.current_char with
      | none =>
        simp only [hc] at h
        injection h with hs ht
        exact Option.noConfusion hs
      | some c =>
        simp only [hc] at h
        exact ruby_char_mu hc h
  case inside_string =>
    cases hc : t.current_char with
    | none =>
      simp only [Ruby.step, Ruby.inside_string, hc] at h
      injection h with hs ht
      exact Option.noConfusion hs
    | some c =>
      have hd := current_char_some hc
      have hd1 : 1 ≤ t.data.length := by rw [hd]; simp
      simp only [Ruby.step, Ruby.inside_string, hc] at h
      split_ifs at h <;>
        (injection h with hs ht; injection hs with hs; subst hs; subst ht;
         apply ruby_mu_consume _ _ _ <;>
           (try simp only [advance_data_tail, advance_states, tokenize_data, tokenize_states,
             List.length_tail]) <;> omega)
  case inside_single_quote_string =>
    cases hc : t.current_char with
    | none =>
      simp only [Ruby.step, Ruby.inside_single_quote_string, hc] at h
      injection h with hs ht
      exact Option.noConfusion hs
    | some c =>
      have hd := current_char_some hc
      have hd1 : 1 ≤ t.data.length := by rw [hd]; simp
      simp only [Ruby.step, Ruby.inside_single_quote_string, hc] at h
      split_ifs at h <;>
        (injection h with hs ht; injection hs with hs; subst hs; subst ht;
         apply ruby_mu_consume _ _ _ <;>
           (try simp only [advance_data_tail, advance_states, tokenize_data, tokenize_states,
             List.length_tail]) <;> omega)
  case whitespace =>
    cases hc : t.current_char with
    | none =>
      simp only [Ruby.step, Ruby.whitespace, hc] at h
      injection h with hs ht
      exact Option.noConfusion hs
    | some c =>
      have hd := current_char_some hc
      have hd1 : 1 ≤ t.data.length := by rw [hd]; simp
      simp only [Ruby.step, Ruby.whitespace, hc] at h
      split_ifs at h with h1
      · injection h with hs ht
        injection hs with hs
        subst hs
        subst ht
        apply ruby_mu_consume _ _ _
        all_goals (try simp only [advance_data_tail, advance_states, List.length_tail])
        all_goals omega
      · have hw : Tokenizer.wsChar c = false := by
          push_neg at h1
          simp [Tokenizer.wsChar, h1.1, h1.2]
        cases hst : (t.tokenize Category.Whitespace).states with
        | cons s3 rest =>
          simp only [hst] at h
          injection h with hs ht
          injection hs with hs
          subst hs
          subst ht
          rw [tokenize_states] at hst
          have hc3 : t.data.head? = some c := hc
          have hr3 := ruby_rank_le s3 (some c)
          have hr1 : Ruby.rank Ruby.RState.whitespace (some c) = 2 := by
            simp [Ruby.rank, hw]
          simp only [current_char_mk, states_set_data, states_set_states,
            states_set_current_char, tokenize_data, tokenize_states, tokenize_current_char,
            hc3, hc, hst, List.length_cons, hr1]
          omega
        | nil =>
          simp only [hst] at h
          injection h with hs ht
          injection hs with hs
          subst hs
          subst ht
          rw [tokenize_states] at hst
          have hr1 : Ruby.rank Ruby.RState.whitespace (some c) = 2 := by
            simp [Ruby.rank, hw]
          have hr0 := ruby_rank_initial_le (some c)
          simp only [tokenize_data, tokenize_states, tokenize_current_char, hc, hst,
            List.length_nil, hr1]
          omega
  case argument =>
    simp only [Ruby.step, Ruby.argument] at h
    by_cases hA1 : t.starts_with_lexeme ("true".toList) = true
    · rw [if_pos hA1] at h
      injection h with hs ht
      injection hs with hs
      subst hs
      subst ht
      have hl := starts_with_lexeme_length_le hA1
      simp at hl
      apply ruby_mu_consume _ _ _
      all_goals (try simp only [tokenize_next_data, tokenize_next_states, List.length_drop])
      all_goals omega
    · rw [if_neg hA1] at h
      by_cases hA2 : t.starts_with_lexeme ("false".toList) = true
      · rw [if_pos hA2] at h
        injection h with hs ht
        injection hs with hs
        subst hs
        subst ht
        have hl := starts_with_lexeme_length_le hA2
        simp at hl
        apply ruby_mu_consume _ _ _
        all_goals (try simp only [tokenize_next_data, tokenize_next_states, List.length_drop])
        all_goals omega
      · rw [if_neg hA2] at h
        cases hc : t.current_char with
        | none =>
          simp only [hc] at h
          injection h with hs ht
          exact Option.noConfusion hs
        | some c =>
          have hd := current_char_some hc
          have hd1 : 1 ≤ t.data.length := by rw [hd]; simp
          simp only [hc] at h
          split_ifs at h with h1 h2 h3
          · injection h with hs ht
            injection hs with hs
            subst hs
            subst ht
            have hw : Tokenizer.wsChar c = true := by
              rcases h1 with rfl | rfl <;> rfl
            simp only [push_state_data, push_state_states, push_state_current_char,
              tokenize_data, tokenize_states, tokenize_current_char, List.length_cons, hc]
            simp [Ruby.rank, hw] <;> omega
          · injection h with hs ht
            injection hs with hs
            subst hs
            subst ht
            apply ruby_mu_consume _ _ _
            all_goals (try simp only [tokenize_next_data, tokenize_next_states,
              tokenize_data, tokenize_states, List.length_drop])
            all_goals omega
          · injection h with hs ht
            injection hs with hs
            subst hs
            subst ht
            apply ruby_mu_consume _ _ _
            all_goals (try simp only [tokenize_next_data, tokenize_next_states,
              tokenize_data, tokenize_states, List.length_drop])
            all_goals omega
          · injection h with hs ht
            injection hs with hs
            subst hs
            subst ht
            apply ruby_mu_consume _ _ _
            all_goals (try simp only [advance_data_tail, advance_states, List.length_tail])
            all_goals omega
  case identifier =>
    cases hc : t.current_char with
    | none =>
      simp only [Ruby.step, Ruby.identifier, hc] at h
      injection h with hs ht
      exact Option.noConfusion hs
    | some c =>
      have hd := current_char_some hc
      have hd1 : 1 ≤ t.data.length := by rw [hd]; simp
      simp only [Ruby.step, Ruby.identifier, hc] at h
      split_ifs at h with h1 h2
      · injection h with hs ht
        injection hs with hs
        subst hs
        subst ht
        simp only [tokenize_data, tokenize_states, tokenize_current_char, hc]
        rcases h1 with rfl | rfl <;> simp [Ruby.rank, Tokenizer.wsChar] <;> omega
      · injection h with hs ht
        injection hs with hs
        subst hs
        subst ht
        apply ruby_mu_consume _ _ _
        all_goals (try simp only [tokenize_next_data, tokenize_next_states,
          tokenize_data, tokenize_states, List.length_drop])
        all_goals omega
      · injection h with hs ht
        injection hs with hs
        subst hs
        subst ht
        apply ruby_mu_consume _ _ _
        all_goals (try simp only [advance_data_tail, advance_states, List.length_tail])
        all_goals omega
  case method =>
    cases hc : t.current_char with
    | none =>
      simp only [Ruby.step, Ruby.method, hc] at h
      injection h with hs ht
      exact Option.noConfusion hs
    | some c =>
      have hd := current_char_some hc
      have hd1 : 1 ≤ t.data.length := by rw [hd]; simp
      simp only [Ruby.step, Ruby.method, hc] at h
      split_ifs at h with h1 h2
      · injection h with hs ht
        injection hs with hs
        subst hs
        subst ht
        simp only [tokenize_data, tokenize_states, tokenize_current_char, hc]
        rcases h1 with rfl | rfl <;> simp [Ruby.rank, Tokenizer.wsChar] <;> omega
      · injection h with hs ht
        injection hs with hs
        subst hs
        subst ht
        apply ruby_mu_consume _ _ _
        all_goals (try simp only [tokenize_next_data, tokenize_next_states,
          tokenize_data, tokenize_states, List.length_drop])
        all_goals omega
      · injection h with hs ht
        injection hs with hs
        subst hs
        subst ht
        apply ruby_mu_consume _ _ _
        all_goals (try simp only [advance_data_tail, advance_states, List.length_tail])
        all_goals omega
  case comment =>
    cases hc : t.current_char with
    | none =>
      simp only [Ruby.step, Ruby.comment, hc] at h
      injection h with hs ht
      exact Option.noConfusion hs
    | some c =>
      have hd := current_char_some hc
      have hd1 : 1 ≤ t.data.length := by rw [hd]; simp
      simp only [Ruby.step, Ruby.comment, hc] at h
      split_ifs at h with h1
      · injection h with hs ht
        injection hs with hs
        subst hs
        subst ht
        subst h1
        simp only [tokenize_data, tokenize_states, tokenize_current_char, hc]
        simp [Ruby.rank, Tokenizer.wsChar] <;> omega
      · injection h with hs ht
        injection hs with hs
        subst hs
        subst ht
        apply ruby_mu_consume _ _ _
        all_goals (try simp only [advance_data_tail, advance_states, List.length_tail])
        all_goals omega
  case integer =>
    cases hc : t.current_char with
    | none =>
      simp only [Ruby.step, Ruby.integer, hc] at h
      injection h with hs ht
      exact Option.noConfusion hs
    | some c =>
      have hd := current_char_some hc
      have hd1 : 1 ≤ t.data.length := by rw [hd]; simp
      simp only [Ruby.step, Ruby.integer, hc] at h
      split_ifs at h with h1
      · injection h with hs ht
        injection hs with hs
        subst hs
        subst ht
        apply ruby_mu_consume _ _ _
        all_goals (try simp only [advance_data_tail, advance_states, List.length_tail])
        all_goals omega
      · injection h with hs ht
        injection hs with hs
        subst hs
        subst ht
        have hr0 := ruby_rank_initial_le (some c)
        have hr1 : Ruby.rank Ruby.RState.integer (some c) = 2 := by
          simp [Ruby.rank, h1]
        simp only [tokenize_data, tokenize_states, tokenize_current_char, hc, hr1]
        omega
  case symbol =>
    cases hc : t.current_char with
    | none =>
      simp only [Ruby.step, Ruby.symbol, hc] at h
      injection h with hs ht
      exact Option.noConfusion hs
    | some c =>
      have hd := current_char_some hc
      have hd1 : 1 ≤ t.data.length := by rw [hd]; simp
      simp only [Ruby.step, Ruby.symbol, hc] at h
      split_ifs at h with h1
      · injection h with hs ht
        injection hs with hs
        subst hs
        subst ht
        apply ruby_mu_consume _ _ _
        all_goals (try simp only [advance_data_tail, advance_states, List.length_tail])
        all_goals omega
      · injection h with hs ht
        injection hs with hs
        subst hs
        subst ht
        have hr0 := ruby_rank_initial_le (some c)
        have hr1 : Ruby.rank Ruby.RState.symbol (some c) = 2 := by
          simp [Ruby.rank, h1]
        simp only [tokenize_data, tokenize_states, tokenize_current_char, hc, hr1]
        omega

set_option maxHeartbeats 2000000 in
/-- A Ruby state only signals completion at end-of-input, leaving the data
empty and the state stack untouched. -/
theorem ruby_step_none (s : Ruby.RState) (t : Tokenizer Ruby.RState)
    {t2 : Tokenizer Ruby.RState} (h : Ruby.step s t = (none, t2)) :
    t.data = [] ∧ t2.data = [] ∧ t2.states = t.states := by
  cases s
  case initial_state =>
    simp only [Ruby.step, Ruby.initial_state] at h
    cases hk : Ruby.initial_state_keywords t with
    | some r =>
      simp only [hk] at h
      obtain ⟨-, -, hsome⟩ := ruby_keywords_facts hk
      rw [h] at hsome
      simp at hsome
    | none =>
      simp only [hk] at h
      cases hc : t.current_char with
      | some c =>
        simp only [hc] at h
        have hsome := ruby_char_isSome t c
        rw [h] at hsome
        simp at hsome
      | none =>
        simp only [hc] at h
        injection h with hs ht
        subst ht
        have hd0 := current_char_none hc
        exact ⟨hd0, by rw [tokenize_data]; exact hd0, by rw [tokenize_states]⟩
  case inside_string =>
    cases hc : t.current_char with
    | some c =>
      simp only [Ruby.step, Ruby.inside_string, hc] at h
      split_ifs at h <;> (injection h with hs ht; exact Option.noConfusion hs)
    | none =>
      simp only [Ruby.step, Ruby.inside_string, hc] at h
      injection h with hs ht
      subst ht
      have hd0 := current_char_none hc
      exact ⟨hd0, by rw [tokenize_data]; exact hd0, by rw [tokenize_states]⟩
  case inside_single_quote_string =>
    cases hc : t.current_char with
    | some c =>
      simp only [Ruby.step, Ruby.inside_single_quote_string, hc] at h
      split_ifs at h <;> (injection h with hs ht; exact Option.noConfusion hs)
    | none =>
      simp only [Ruby.step, Ruby.inside_single_quote_string, hc] at h
      injection h with hs ht
      subst ht
      have hd0 := current_char_none hc
      exact ⟨hd0, by rw [tokenize_data]; exact hd0, by rw [tokenize_states]⟩
  case whitespace =>
    cases hc : t.current_char with
    | some c =>
      simp only [Ruby.step, Ruby.whitespace, hc] at h
      split_ifs at h with h1
      · injection h with hs ht
        exact Option.noConfusion hs
      · cases hst : (t.tokenize Category.Whitespace).states with
        | cons s3 rest =>
          simp only [hst] at h
          injection h with hs ht
          exact Option.noConfusion hs
        | nil =>
          simp only [hst] at h
          injection h with hs ht
          exact Option.noConfusion hs
    | none =>
      simp only [Ruby.step, Ruby.whitespace, hc] at h
      injection h with hs ht
      subst ht
      have hd0 := current_char_none hc
      exact ⟨hd0, by rw [tokenize_data]; exact hd0, by rw [tokenize_states]⟩
  case argument =>
    simp only [Ruby.step, Ruby.argument] at h
    by_cases hA1 : t.starts_with_lexeme ("true".toList) = true
    · rw [if_pos hA1] at h
      injection h with hs ht
      exact Option.noConfusion hs
    · rw [if_neg hA1] at h
      by_cases hA2 : t.starts_with_lexeme ("false".toList) = true
      · rw [if_pos hA2] at h
        injection h with hs ht
        exact Option.noConfusion hs
      · rw [if_neg hA2] at h
        cases hc : t.current_char with
        | some c =>
          simp only [hc] at h
          split_ifs at h <;> (injection h with hs ht; exact Option.noConfusion hs)
        | none =>
          simp only [hc] at h
          injection h with hs ht
          subst ht
          have hd0 := current_char_none hc
          exact ⟨hd0, by rw [tokenize_data]; exact hd0, by rw [tokenize_states]⟩
  case identifier =>
    cases hc : t.current_char with
    | some c =>
      simp only [Ruby.step, Ruby.identifier, hc] at h
      split_ifs at h <;> (injection h with hs ht; exact Option.noConfusion hs)
    | none =>
      simp only [Ruby.step, Ruby.identifier, hc] at h
      injection h with hs ht
      subst ht
      have hd0 := current_char_none hc
      exact ⟨hd0, by rw [tokenize_data]; exact hd0, by rw [tokenize_states]⟩
  case method =>
    cases hc : t.current_char with
    | some c =>
      simp only [Ruby.step, Ruby.method, hc] at h
      split_ifs at h <;> (injection h with hs ht; exact Option.noConfusion hs)
    | none =>
      simp only [Ruby.step, Ruby.method, hc] at h
      injection h with hs ht
      subst ht
      have hd0 := current_char_none hc
      exact ⟨hd0, by rw [tokenize_data]; exact hd0, by rw [tokenize_states]⟩
  case comment =>
    cases hc : t.current_char with
    | some c =>
      simp only [Ruby.step, Ruby.comment, hc] at h
      split_ifs at h <;> (injection h with hs ht; exact Option.noConfusion hs)
    | none =>
      simp only [Ruby.step, Ruby.comment, hc] at h
      injection h with hs ht
      subst ht
      have hd0 := current_char_none hc
      exact ⟨hd0, by rw [tokenize_data]; exact hd0, by rw [tokenize_states]⟩
  case integer =>
    cases hc : t.current_char with
    | some c =>
      simp only [Ruby.step, Ruby.integer, hc] at h
      split_ifs at h <;> (injection h with hs ht; exact Option.noConfusion hs)
    | none =>
      simp only [Ruby.step, Ruby.integer, hc] at h
      injection h with hs ht
      subst ht
      have hd0 := current_char_none hc
      exact ⟨hd0, by rw [tokenize_data]; exact hd0, by rw [tokenize_states]⟩
  case symbol =>
    cases hc : t.current_char with
    | some c =>
      simp only [Ruby.step, Ruby.symbol, hc] at h
      split_ifs at h <;> (injection h with hs ht; exact Option.noConfusion hs)
    | none =>
      simp only [Ruby.step, Ruby.symbol, hc] at h
      injection h with hs ht
      subst ht
      have hd0 := current_char_none hc
      exact ⟨hd0, by rw [tokenize_data]; exact hd0, by rw [tokenize_states]⟩

/-- Any fuel above the measure suffices for the Ruby driving loop, including
its stack-popping continuation on finished states. -/
theorem ruby_run_isSome (n : Nat) (s : Ruby.RState) (t : Tokenizer Ruby.RState)
    (h : 8 * t.data.length + 2 * t.states.length + Ruby.rank s t.current_char < n) :
    (Ruby.run n s t).isSome := by
  induction n generalizing s t with
  | zero => omega
  | succ n ih =>
    simp only [Ruby.run]
    cases hstep : Ruby.step s t with
    | mk os t2 =>
      cases os with
      | some s2 =>
        have hmu := ruby_step_mu s t hstep
        exact ih s2 t2 (by omega)
      | none =>
        obtain ⟨hd0, hd2, hstates⟩ := ruby_step_none s t hstep
        cases hst : t2.states with
        | nil => simp [hst]
        | cons s3 rest =>
          simp only [hst]
          apply ih s3
          have hcn : t.current_char = none := by
            unfold Tokenizer.current_char
            rw [hd0]
            rfl
          have hr0 : Ruby.rank s t.current_char = 0 := by
            rw [hcn]
            exact ruby_rank_none s
          have hstlen : t.states.length = rest.length + 1 := by
            rw [← hstates, hst]
            rfl
          simp only [states_set_data, states_set_states, states_set_current_char, hd2,
            current_char_mk, List.head?_nil, ruby_rank_none, List.length_nil]
          omega

end LexerRuns

section LexJoin

/-- The json lexer rank of the starting state is zero. -/
theorem json_rank_initial : Json.rank Json.JState.initial_state = 0 := rfl

theorem default_rank_initial : Default.rank Default.DState.initial_state = 0 := rfl

theorem xml_rank_initial (oc : Option Char) : Xml.rank Xml.XState.initial_state oc = 0 := by
  cases oc <;> rfl

/-- The json lexer is lossless: its tokens join back to the input. -/
theorem json_lex_join (D : List Char) : joinLexemes (Json.lex D) = D := by
  have hb : 2 * (Tokenizer.new D : Tokenizer Json.JState).data.length +
      Json.rank Json.JState.initial_state < Json.bound D := by
    simp only [new_data, json_rank_initial, Json.bound]
    omega
  have hs := json_run_isSome (Json.bound D) Json.JState.initial_state (Tokenizer.new D) hb
  obtain ⟨ts, hts⟩ := Option.isSome_iff_exists.mp hs
  unfold Json.lex
  simp only [hts]
  rw [json_run_join _ _ _ hts, reconstruct_new]

/-- The xml lexer is lossless: its tokens join back to the input. -/
theorem xml_lex_join (D : List Char) : joinLexemes (Xml.lex D) = D := by
  have hb : 8 * (Tokenizer.new D : Tokenizer Xml.XState).data.length +
      2 * (Tokenizer.new D : Tokenizer Xml.XState).states.length +
      Xml.rank Xml.XState.initial_state
        (Tokenizer.new D : Tokenizer Xml.XState).current_char < Xml.bound D := by
    simp only [new_data, new_states, new_current_char, List.length_nil, xml_rank_initial,
      Xml.bound]
    omega
  have hs := xml_run_isSome (Xml.bound D) Xml.XState.initial_state (Tokenizer.new D) hb
  obtain ⟨ts, hts⟩ := Option.isSome_iff_exists.mp hs
  unfold Xml.lex
  simp only [hts]
  rw [xml_run_join _ _ _ hts, reconstruct_new]

/-- The default lexer is lossless: its tokens join back to the input. -/
theorem default_lex_join (D : List Char) : joinLexemes (Default.lex D) = D := by
  have hb : 2 * (Tokenizer.new D : Tokenizer Default.DState).data.length +
      Default.rank Default.DState.initial_state < Default.bound D := by
    simp only [new_data, default_rank_initial, Default.bound]
    omega
  have hs := default_run_isSome (Default.bound D) Default.DState.initial_state
    (Tokenizer.new D) hb
  obtain ⟨ts, hts⟩ := Option.isSome_iff_exists.mp hs
  unfold Default.lex
  simp only [hts]
  rw [default_run_join _ _ _ hts, reconstruct_new]

/-- The ruby lexer is lossless: its tokens join back to the input. -/
theorem ruby_lex_join (D : List Char) : joinLexemes (Ruby.lex D) = D := by
  have hb : 8 * (Tokenizer.new D : Tokenizer Ruby.RState).data.length +
      2 * (Tokenizer.new D : Tokenizer Ruby.RState).states.length +
      Ruby.rank Ruby.RState.initial_state
        (Tokenizer.new D : Tokenizer Ruby.RState).current_char < Ruby.bound D := by
    have hr := ruby_rank_initial_le ((Tokenizer.new D : Tokenizer Ruby.RState).current_char)
    simp only [new_data, new_states, List.length_nil, Ruby.bound]
    omega
  have hs := ruby_run_isSome (Ruby.bound D) Ruby.RState.initial_state (Tokenizer.new D) hb
  obtain ⟨⟨sf, tf⟩, hts⟩ := Option.isSome_iff_exists.mp hs
  unfold Ruby.lex
  simp only [hts]
  rw [joinLexemes_tokensList, ruby_run_reconstruct _ _ _ hts, reconstruct_new]

/-- tokenize preserves any predicate on committed categories, given it holds
of the committed category. -/
theorem tokenize_cats {σ : Type} (P : Category → Prop) {t : Tokenizer σ}
    (h : ∀ tok ∈ t.tokens, P tok.category) {c : Category} (hc : P c) :
    ∀ tok ∈ (t.tokenize c).tokens, P tok.category := by
  unfold Tokenizer.tokenize
  split
  · exact h
  · intro tok hm
    rcases List.mem_append.mp hm with hl | hr
    · exact h tok hl
    · rw [List.mem_singleton] at hr
      subst hr
      exact hc

theorem advanceN_tokens {σ : Type} (t : Tokenizer σ) (n : Nat) :
    (t.advanceN n).tokens = t.tokens := by
  rw [advanceN_spec]

/-- tokenize_next commits only Text (the flush) and the given category. -/
theorem tokenize_next_cats {σ : Type} (P : Category → Prop) {t : Tokenizer σ}
    (h : ∀ tok ∈ t.tokens, P tok.category) (n : Nat) {c : Category}
    (hT : P Category.Text) (hc : P c) :
    ∀ tok ∈ (t.tokenize_next n c).tokens, P tok.category := by
  unfold Tokenizer.tokenize_next
  apply tokenize_cats P _ hc
  rw [advanceN_tokens]
  exact tokenize_cats P h hT

/-- One carving step of the HTML-ERB lexer commits only Keyword, String and
Text tokens. -/
theorem erb_step_cats (s : Erb.EState) (t : Tokenizer Erb.EState)
    (h : carveCategories t.tokens) : carveCategories (Erb.step s t).2.tokens := by
  have hK : Category.Keyword = Category.Keyword ∨ Category.Keyword = Category.String ∨
      Category.Keyword = Category.Text := Or.inl rfl
  have hS : Category.String = Category.Keyword ∨ Category.String = Category.String ∨
      Category.String = Category.Text := Or.inr (Or.inl rfl)
  have hT : Category.Text = Category.Keyword ∨ Category.Text = Category.String ∨
      Category.Text = Category.Text := Or.inr (Or.inr rfl)
  cases s with
  | initial_state =>
    simp only [Erb.step]
    by_cases h1 : t.starts_with ("<%=".toList)
    · rw [if_pos h1]
      exact tokenize_next_cats (fun cat => cat = Category.Keyword ∨ cat = Category.String ∨ cat = Category.Text) h 3 hT hK
    · rw [if_neg h1]
      by_cases h2 : t.starts_with ("<%".toList)
      · rw [if_pos h2]
        exact tokenize_next_cats (fun cat => cat = Category.Keyword ∨ cat = Category.String ∨ cat = Category.Text) h 2 hT hK
      · rw [if_neg h2]
        cases hc : t.current_char with
        | some c =>
          intro tok hm
          rw [advance_tokens] at hm
          exact h tok hm
        | none => exact tokenize_cats (fun cat => cat = Category.Keyword ∨ cat = Category.String ∨ cat = Category.Text) h hT
  | ruby =>
    simp only [Erb.step]
    by_cases h1 : t.starts_with ("%>".toList)
    · rw [if_pos h1]
      exact tokenize_next_cats (fun cat => cat = Category.Keyword ∨ cat = Category.String ∨ cat = Category.Text) (tokenize_cats (fun cat => cat = Category.Keyword ∨ cat = Category.String ∨ cat = Category.Text) h hS) 2 hT hK
    · rw [if_neg h1]
      cases hc : t.current_char with
      | some c =>
        intro tok hm
        rw [advance_tokens] at hm
        exact h tok hm
      | none => exact tokenize_cats (fun cat => cat = Category.Keyword ∨ cat = Category.String ∨ cat = Category.Text) h hS

/-- tokens() preserves the carve-category invariant (its trailing token, if
any, is Text). -/
theorem tokensList_cats {σ : Type} {t : Tokenizer σ} (h : carveCategories t.tokens) :
    carveCategories t.tokensList := by
  unfold Tokenizer.tokensList
  by_cases hr : t.current_token ++ t.data = []
  · simpa [hr] using h
  · intro tok hm
    simp only [hr, if_false] at hm
    rcases List.mem_append.mp hm with hl | hr2
    · exact h tok hl
    · simp only [List.mem_singleton] at hr2
      subst hr2
      exact Or.inr (Or.inr rfl)

/-- A completed carving run emits only Keyword, String and Text tokens. -/
theorem erb_run_cats (n : Nat) (s : Erb.EState) (t : Tokenizer Erb.EState)
    {ts : List Token} (h : Erb.run n s t = some ts) (hc : carveCategories t.tokens) :
    carveCategories ts := by
  induction n generalizing s t with
  | zero => cases h
  | succ n ih =>
    simp only [Erb.run] at h
    cases hstep : Erb.step s t with
    | mk os t2 =>
      rw [hstep] at h
      have h2 : carveCategories t2.tokens := by
        have h3 := erb_step_cats s t hc
        rw [hstep] at h3
        exact h3
      cases os with
      | some s2 => exact ih s2 t2 h h2
      | none =>
        injection h with h
        subst h
        exact tokensList_cats h2

/-- The carving phase of the HTML-ERB lexer emits only Keyword, String and
Text tokens. -/
theorem erb_carve_cats (D : List Char) : carveCategories (Erb.carve D) := by
  have hb : (Tokenizer.new D : Tokenizer Erb.EState).data.length < Erb.bound D := by
    simp only [new_data, Erb.bound]
    omega
  have hs := erb_run_isSome (Erb.bound D) Erb.EState.initial_state (Tokenizer.new D) hb
  obtain ⟨ts, hts⟩ := Option.isSome_iff_exists.mp hs
  unfold Erb.carve
  simp only [hts]
  exact erb_run_cats _ _ _ hts (fun tok hm => absurd hm (List.not_mem_nil tok))

/-- The carving phase of the HTML-ERB lexer is lossless. -/
theorem erb_carve_join (D : List Char) : joinLexemes (Erb.carve D) = D := by
  have hb : (Tokenizer.new D : Tokenizer Erb.EState).data.length < Erb.bound D := by
    simp only [new_data, Erb.bound]
    omega
  have hs := erb_run_isSome (Erb.bound D) Erb.EState.initial_state (Tokenizer.new D) hb
  obtain ⟨ts, hts⟩ := Option.isSome_iff_exists.mp hs
  unfold Erb.carve
  simp only [hts]
  rw [erb_run_join _ _ _ hts, reconstruct_new]

/-- Splicing sub-lexer output into a carved run list preserves the joined
content, because each sub-lexer is itself lossless. -/
theorem erb_splice_join (l : List Token) : carveCategories l →
    ∀ acc : List Token, joinLexemes (List.foldl Erb.splice acc l) =
      joinLexemes acc ++ joinLexemes l := by
  induction l with
  | nil =>
    intro _ acc
    simp [joinLexemes]
  | cons tok rest ih =>
    intro hl acc
    have htok := hl tok (List.mem_cons_self tok rest)
    have hrest : carveCategories rest := fun x hx => hl x (List.mem_cons_of_mem tok hx)
    rw [List.foldl_cons, ih hrest (Erb.splice acc tok)]
    unfold Erb.splice
    rcases htok with hK | hS | hT
    · rw [hK]
      simp [joinLexemes, joinLexemes_append]
    · rw [hS]
      simp [joinLexemes, joinLexemes_append, ruby_lex_join]
    · rw [hT]
      simp [joinLexemes, joinLexemes_append, xml_lex_join]

/-- The html_erb lexer is lossless: its tokens join back to the input. -/
theorem erb_lex_join (D : List Char) : joinLexemes (Erb.lex D) = D := by
  unfold Erb.lex
  rw [erb_splice_join (Erb.carve D) (erb_carve_cats D) [], erb_carve_join D]
  simp [joinLexemes]

end LexJoin

section Claims

/-- C1: For every input string D and every lexer entry point in the toolkit
(including the delegating HTML-ERB lexer, which splices sub-lexer outputs
into its carved runs), concatenating the lexemes of lex(D) in emission order
reproduces D exactly; at the core, any tokenizer reachable by the scanner
operations has tokens() joining back to its input, because tokens() returns
the committed tokens followed by any uncommitted and remaining data as a
trailing Text token. -/
theorem claim_C1_losslessness :
    (∀ (σ : Type) (D : List Char) (t : Tokenizer σ),
        Reachable D t → joinLexemes t.tokensList = D) ∧
    (∀ D : List Char, joinLexemes (Json.lex D) = D) ∧
    (∀ D : List Char, joinLexemes (Xml.lex D) = D) ∧
    (∀ D : List Char, joinLexemes (Ruby.lex D) = D) ∧
    (∀ D : List Char, joinLexemes (Default.lex D) = D) ∧
    (∀ D : List Char, joinLexemes (Erb.lex D) = D) := by
  refine ⟨?_, json_lex_join, xml_lex_join, ruby_lex_join, default_lex_join, erb_lex_join⟩
  intro σ D t h
  rw [joinLexemes_tokensList]
  exact reachable_reconstruct h

theorem claim_C1_losslessness_witness :
    joinLexemes ((Tokenizer.new ("ab".toList) : Tokenizer Unit).advance.tokensList) =
      "ab".toList :=
  claim_C1_losslessness.1 Unit ("ab".toList) _ (Reachable.advance Reachable.init)

/-- C2: No tokenizer reachable by the scanner operations ever emits a
zero-length lexeme from tokens(); tokenize with an empty pending span is a
no-op, and the final flush of tokens() emits a trailing token exactly when
the uncommitted (in-progress plus remaining) data is non-empty. -/
theorem claim_C2_no_empty_tokens :
    (∀ (σ : Type) (D : List Char) (t : Tokenizer σ), Reachable D t →
        ∀ tok ∈ t.tokensList, tok.lexeme ≠ []) ∧
    (∀ (σ : Type) (t : Tokenizer σ) (c : Category), t.current_token = [] →
        t.tokenize c = t) ∧
    (∀ (σ : Type) (t : Tokenizer σ), t.current_token ++ t.data ≠ [] →
        t.tokensList = t.tokens ++ [⟨t.current_token ++ t.data, Category.Text⟩]) ∧
    (∀ (σ : Type) (t : Tokenizer σ), t.current_token ++ t.data = [] →
        t.tokensList = t.tokens) := by
  refine ⟨?_, ?_, ?_, ?_⟩
  · intro σ D t h
    exact tokensList_noEmpty (reachable_noEmpty h)
  · intro σ t c h
    unfold Tokenizer.tokenize
    rw [if_pos h]
  · intro σ t h
    unfold Tokenizer.tokensList
    simp only [h, if_false]
  · intro σ t h
    unfold Tokenizer.tokensList
    simp [h]

theorem claim_C2_no_empty_tokens_witness :
    ∀ tok ∈ ((Tokenizer.new ("ab".toList) : Tokenizer Unit).advance.tokenize
      Category.Text).tokensList, tok.lexeme ≠ [] :=
  claim_C2_no_empty_tokens.1 Unit ("ab".toList) _
    (Reachable.tokenize Category.Text (Reachable.advance Reachable.init))

/-- C3 counterexample: starts_with_lexeme skips `lexeme.len()` — the UTF-8
BYTE length of the word — positions of the character iterator before the
boundary test, so for a non-ASCII word the tested character is not the one
immediately following the word.  With remaining data "éa" and word "é"
(one character, two bytes), the source skips two characters, lands past the
'a', sees end-of-input and answers true, while the spec's reading (boundary
at character offset 1) sees 'a' and answers false. -/
theorem claim_C3_counterexample :
    (Tokenizer.new ("éa".toList) : Tokenizer Unit).starts_with_lexeme ("é".toList) = true ∧
    specStartsWithLexeme (Tokenizer.new ("éa".toList) : Tokenizer Unit) ("é".toList) =
      false := by
  decide

/-- C3 (amended): for an ASCII word the byte and character offsets agree, and
starts_with_lexeme(W) is exactly: the remaining data starts with W and the
character at offset |W| — the one immediately following W — is a space,
newline, comma, or absent.  The "end" family behaves as claimed.  For a word
containing a non-ASCII character the boundary is tested at the UTF-8 byte
offset of the word instead (see the counterexample). -/
theorem claim_C3_boundary :
    (∀ (σ : Type) (t : Tokenizer σ) (w : List Char), (∀ c ∈ w, c.toNat < 128) →
        t.starts_with_lexeme w = specStartsWithLexeme t w) ∧
    (Tokenizer.new ("end\n".toList) : Tokenizer Unit).starts_with_lexeme ("end".toList) =
      true ∧
    (Tokenizer.new ("end ".toList) : Tokenizer Unit).starts_with_lexeme ("end".toList) =
      true ∧
    (Tokenizer.new ("end,".toList) : Tokenizer Unit).starts_with_lexeme ("end".toList) =
      true ∧
    (Tokenizer.new ("end".toList) : Tokenizer Unit).starts_with_lexeme ("end".toList) =
      true ∧
    (Tokenizer.new ("ending".toList) : Tokenizer Unit).starts_with_lexeme ("end".toList) =
      false := by
  refine ⟨?_, by decide, by decide, by decide, by decide, by decide⟩
  intro σ t w hw
  unfold Tokenizer.starts_with_lexeme specStartsWithLexeme
  rw [ascii_utf8Length w hw]
  rfl

theorem claim_C3_boundary_witness :
    (∀ c ∈ ("end".toList), c.toNat < 128) ∧
    (Tokenizer.new ("end x".toList) : Tokenizer Unit).starts_with_lexeme ("end".toList) =
      specStartsWithLexeme (Tokenizer.new ("end x".toList) : Tokenizer Unit)
        ("end".toList) :=
  ⟨by decide, claim_C3_boundary.1 Unit _ _ (by decide)⟩

/-- C4: tokenize_next(n, c) is flush-as-Text, then n advances clamped at
end-of-input, then commit under c; when n is at least the remaining length
the committed lexeme is exactly the full remainder. -/
theorem claim_C4_tokenize_next :
    (∀ (σ : Type) (t : Tokenizer σ) (n : Nat) (c : Category),
        t.tokenize_next n c =
          ((t.tokenize Category.Text).advanceN (min n t.data.length)).tokenize c) ∧
    (∀ (σ : Type) (t : Tokenizer σ) (n : Nat) (c : Category), t.data.length ≤ n →
        (t.tokenize_next n c).tokens =
          (t.tokenize Category.Text).tokens ++
            if t.data = [] then [] else [⟨t.data, c⟩]) := by
  constructor
  · intro σ t n c
    unfold Tokenizer.tokenize_next
    rw [advanceN_spec, advanceN_spec]
    simp only [tokenize_data]
    rw [drop_min, take_min]
  · intro σ t n c h
    unfold Tokenizer.tokenize_next
    rw [advanceN_spec]
    simp only [tokenize_data, tokenize_current_token_nil, List.nil_append]
    rw [List.take_of_length_le h, List.drop_eq_nil_of_le h]
    unfold Tokenizer.tokenize
    by_cases hd : t.data = []
    · simp [hd]
    · simp [hd]

theorem claim_C4_tokenize_next_witness :
    ("abcde".toList : List Char).length ≤ 15 ∧
    ((Tokenizer.new ("abcde".toList) : Tokenizer Unit).tokenize_next 15
        Category.Keyword).tokens =
      ((Tokenizer.new ("abcde".toList) : Tokenizer Unit).tokenize Category.Text).tokens ++
        if ("abcde".toList : List Char) = [] then [] else [⟨"abcde".toList, Category.Keyword⟩] :=
  ⟨by decide, claim_C4_tokenize_next.2 Unit _ 15 Category.Keyword (by decide)⟩

/-- C5 counterexample: when the current character is not whitespace,
consume_whitespace returns without doing anything at all — in particular it
does NOT flush the pending span as Text, contrary to the claim.  On the
tokenizer over "ab" after one advance (pending span "a", cursor at 'b'),
consume_whitespace is the identity and commits nothing, while the claimed
behaviour would commit Text("a"). -/
theorem claim_C5_counterexample :
    (Tokenizer.new ("ab".toList) : Tokenizer Unit).advance.consume_whitespace =
      (Tokenizer.new ("ab".toList) : Tokenizer Unit).advance ∧
    ((Tokenizer.new ("ab".toList) : Tokenizer Unit).advance.consume_whitespace).tokens =
      [] ∧
    (specConsumeWhitespace ((Tokenizer.new ("ab".toList) : Tokenizer Unit).advance)).tokens =
      [⟨"a".toList, Category.Text⟩] := by
  decide

/-- C5 (amended): when the current character IS whitespace,
consume_whitespace behaves exactly as claimed — flush pending as Text,
advance over the maximal space/newline run, commit it as one Whitespace
token; but when the current character is absent or not whitespace the whole
call is a no-op (it neither flushes nor commits anything; see the
counterexample for the missing flush). -/
theorem claim_C5_consume_whitespace :
    (∀ (σ : Type) (t : Tokenizer σ) (c : Char), t.current_char = some c →
        Tokenizer.wsChar c = true → t.consume_whitespace = specConsumeWhitespace t) ∧
    (∀ (σ : Type) (t : Tokenizer σ),
        (∀ c, t.current_char = some c → Tokenizer.wsChar c = false) →
        t.consume_whitespace = t) := by
  constructor
  · intro σ t c hc hw
    rw [consume_whitespace_spec hc hw]
    unfold specConsumeWhitespace
    rw [advanceN_spec]
    simp only [tokenize_data, tokenize_current_token_nil, List.nil_append, tokenize_states]
    rw [take_length_takeWhile, drop_length_takeWhile]
  · intro σ t h
    exact consume_whitespace_noop h

theorem claim_C5_consume_whitespace_witness :
    (Tokenizer.new (" a".toList) : Tokenizer Unit).current_char = some ' ' ∧
    Tokenizer.wsChar ' ' = true ∧
    (Tokenizer.new (" a".toList) : Tokenizer Unit).consume_whitespace =
      specConsumeWhitespace (Tokenizer.new (" a".toList) : Tokenizer Unit) :=
  ⟨rfl, rfl, claim_C5_consume_whitespace.1 Unit _ ' ' rfl rfl⟩

/-- C6: the Ruby driving loop never ends the pass while suspended states
remain on the stack (a completed run always leaves an empty stack); when a
state returns finished (none) with a non-empty stack the loop pops and
resumes the popped state; and the terminal whitespace sub-state, on a
non-whitespace character, pops the stack for its next state, falling back to
initial_state when the stack is empty. -/
theorem claim_C6_state_stack :
    (∀ (n : Nat) (s : Ruby.RState) (t : Tokenizer Ruby.RState) (sf : Ruby.RState)
        (tf : Tokenizer Ruby.RState), Ruby.run n s t = some (sf, tf) → tf.states = []) ∧
    (∀ (n : Nat) (s s2 : Ruby.RState) (t t2 : Tokenizer Ruby.RState)
        (rest : List Ruby.RState), Ruby.step s t = (none, t2) → t2.states = s2 :: rest →
        Ruby.run (n + 1) s t = Ruby.run n s2 { t2 with states := rest }) ∧
    (∀ (t : Tokenizer Ruby.RState) (c : Char) (s3 : Ruby.RState)
        (rest : List Ruby.RState), t.current_char = some c →
        Tokenizer.wsChar c = false → t.states = s3 :: rest →
        Ruby.step Ruby.RState.whitespace t =
          (some s3, { t.tokenize Category.Whitespace with states := rest })) ∧
    (∀ (t : Tokenizer Ruby.RState) (c : Char), t.current_char = some c →
        Tokenizer.wsChar c = false → t.states = [] →
        Ruby.step Ruby.RState.whitespace t =
          (some Ruby.RState.initial_state, t.tokenize Category.Whitespace)) := by
  refine ⟨?_, ?_, ?_, ?_⟩
  · intro n
    induction n with
    | zero =>
      intro s t sf tf h
      cases h
    | succ n ih =>
      intro s t sf tf h
      simp only [Ruby.run] at h
      cases hstep : Ruby.step s t with
      | mk os t2 =>
        rw [hstep] at h
        cases os with
        | some s2 => exact ih s2 t2 sf tf h
        | none =>
          replace h : (match t2.states with
              | s2 :: rest => Ruby.run n s2 { t2 with states := rest }
              | [] => some (s, t2)) = some (sf, tf) := h
          cases hst : t2.states with
          | cons s2 rest =>
            rw [hst] at h
            exact ih s2 _ sf tf h
          | nil =>
            rw [hst] at h
            injection h with h
            injection h with h1 h2
            subst h2
            exact hst
  · intro n s s2 t t2 rest hstep hst
    simp only [Ruby.run, hstep]
    show (match t2.states with
        | s3 :: r => Ruby.run n s3 { t2 with states := r }
        | [] => some (s, t2)) = Ruby.run n s2 { t2 with states := rest }
    rw [hst]
  · intro t c s3 rest hc hw hst
    simp only [Ruby.step, Ruby.whitespace, hc]
    have hnot : ¬(c = ' ' ∨ c = '\n') := by
      intro hor
      rcases hor with rfl | rfl <;> simp [Tokenizer.wsChar] at hw
    rw [if_neg hnot]
    have h2 : (t.tokenize Category.Whitespace).states = s3 :: rest := by
      rw [tokenize_states]
      exact hst
    simp only [h2]
  · intro t c hc hw hst
    simp only [Ruby.step, Ruby.whitespace, hc]
    have hnot : ¬(c = ' ' ∨ c = '\n') := by
      intro hor
      rcases hor with rfl | rfl <;> simp [Tokenizer.wsChar] at hw
    rw [if_neg hnot]
    have h2 : (t.tokenize Category.Whitespace).states = [] := by
      rw [tokenize_states]
      exact hst
    simp only [h2]

theorem claim_C6_state_stack_witness :
    Ruby.step Ruby.RState.initial_state
        (⟨[], [], [], [Ruby.RState.whitespace]⟩ : Tokenizer Ruby.RState) =
      ((none, ⟨[], [], [], [Ruby.RState.whitespace]⟩) :
        Option Ruby.RState × Tokenizer Ruby.RState) ∧
    Ruby.run 4 Ruby.RState.initial_state ⟨[], [], [], [Ruby.RState.whitespace]⟩ =
      Ruby.run 3 Ruby.RState.whitespace ⟨[], [], [], []⟩ :=
  ⟨by decide, claim_C6_state_stack.2.1 3 Ruby.RState.initial_state Ruby.RState.whitespace
    ⟨[], [], [], [Ruby.RState.whitespace]⟩ ⟨[], [], [], [Ruby.RState.whitespace]⟩ []
    (by decide) rfl⟩

/-- C7: in the JSON string state a backslash consumes exactly the backslash
and the following character (two advances) without inspecting the escaped
value, staying in the string state; at end-of-input before a closing quote
the state finishes and the pending run is committed under String; and lexing
the unterminated input "\"open!" yields the single token
String("\"open!"). -/
theorem claim_C7_json_unterminated_string :
    (∀ t : Tokenizer Json.JState, t.current_char = some '\\' →
        Json.step Json.JState.inside_string t =
          (some Json.JState.inside_string, t.advance.advance)) ∧
    (∀ t : Tokenizer Json.JState, t.current_char = none →
        Json.step Json.JState.inside_string t = (none, t.tokenize Category.String)) ∧
    Json.lex ("\"open!".toList) = [⟨"\"open!".toList, Category.String⟩] := by
  refine ⟨?_, ?_, by decide⟩
  · intro t hc
    simp only [Json.step, hc]
    simp
  · intro t hc
    simp only [Json.step, hc]

theorem claim_C7_json_unterminated_string_witness :
    (⟨['\\', 'n'], [], [], []⟩ : Tokenizer Json.JState).current_char = some '\\' ∧
    Json.step Json.JState.inside_string ⟨['\\', 'n'], [], [], []⟩ =
      (some Json.JState.inside_string,
        (⟨['\\', 'n'], [], [], []⟩ : Tokenizer Json.JState).advance.advance) :=
  ⟨rfl, claim_C7_json_unterminated_string.1 _ rfl⟩

/-- C8: every lexing pass terminates — advance never grows the remaining
data (the cursor is monotone and bounded by the input length), and for every
input each lexer's driving loop reaches the finished signal within the
stated fuel bound, a linear function of the input length. -/
theorem claim_C8_termination :
    (∀ (σ : Type) (t : Tokenizer σ), t.advance.data.length ≤ t.data.length) ∧
    (∀ D : List Char,
        (Json.run (Json.bound D) Json.JState.initial_state (Tokenizer.new D)).isSome) ∧
    (∀ D : List Char,
        (Xml.run (Xml.bound D) Xml.XState.initial_state (Tokenizer.new D)).isSome) ∧
    (∀ D : List Char,
        (Ruby.run (Ruby.bound D) Ruby.RState.initial_state (Tokenizer.new D)).isSome) ∧
    (∀ D : List Char,
        (Erb.run (Erb.bound D) Erb.EState.initial_state (Tokenizer.new D)).isSome) ∧
    (∀ D : List Char,
        (Default.run (Default.bound D) Default.DState.initial_state
          (Tokenizer.new D)).isSome) := by
  refine ⟨?_, ?_, ?_, ?_, ?_, ?_⟩
  · intro σ t
    rw [advance_data_tail, List.length_tail]
    omega
  · intro D
    apply json_run_isSome
    simp only [new_data, json_rank_initial, Json.bound]
    omega
  · intro D
    apply xml_run_isSome
    simp only [new_data, new_states, new_current_char, List.length_nil, xml_rank_initial,
      Xml.bound]
    omega
  · intro D
    apply ruby_run_isSome
    have hr := ruby_rank_initial_le ((Tokenizer.new D : Tokenizer Ruby.RState).current_char)
    simp only [new_data, new_states, List.length_nil, Ruby.bound]
    omega
  · intro D
    apply erb_run_isSome
    simp only [new_data, Erb.bound]
    omega
  · intro D
    apply default_run_isSome
    simp only [new_data, default_rank_initial, Default.bound]
    omega

/-- C9: tokens() is a pure query — it hands back the receiver with the data
cursor, in-progress lexeme, committed tokens and state stack untouched, and
a second call on the returned receiver yields the same token list. -/
theorem claim_C9_tokens_pure (σ : Type) (t : Tokenizer σ) :
    (t.tokensOp.2.data = t.data ∧ t.tokensOp.2.current_token = t.current_token ∧
      t.tokensOp.2.tokens = t.tokens ∧ t.tokensOp.2.states = t.states) ∧
    t.tokensOp.2.tokensOp.1 = t.tokensOp.1 ∧
    t.tokensOp.1 = t.tokensList :=
  ⟨⟨rfl, rfl, rfl, rfl⟩, rfl, rfl⟩

/-- C10: the JSON lexer recognizes true/false/null by bare prefix match,
only at a fresh token boundary (empty in-progress lexeme) and without the
lexeme-boundary test: "truest" lexes as Boolean("true") then Text("st"),
"xtrue" as the single Text("xtrue"); at a fresh boundary with a bare "true"
prefix the state commits four characters as Boolean, and with a non-empty
in-progress lexeme the literal test is skipped and the character is simply
consumed. -/
theorem claim_C10_json_literals :
    Json.lex ("truest".toList) =
      [⟨"true".toList, Category.Boolean⟩, ⟨"st".toList, Category.Text⟩] ∧
    Json.lex ("xtrue".toList) = [⟨"xtrue".toList, Category.Text⟩] ∧
    (∀ t : Tokenizer Json.JState, t.current_token = [] →
        t.starts_with ("true".toList) = true →
        Json.step Json.JState.initial_state t =
          (some Json.JState.initial_state, t.tokenize_next 4 Category.Boolean)) ∧
    (∀ (t : Tokenizer Json.JState) (c : Char), t.current_char = some c →
        c ≠ '{' → c ≠ '[' → c ≠ ' ' → c ≠ '\n' → c ≠ '"' → c ≠ ':' → c ≠ '}' →
        c ≠ ']' → t.current_token ≠ [] →
        Json.step Json.JState.initial_state t =
          (some Json.JState.initial_state, t.advance)) := by
  refine ⟨by decide, by decide, ?_, ?_⟩
  · intro t h0 hpre
    obtain ⟨rest, hr⟩ := List.isPrefixOf_iff_prefix.mp hpre
    have hc : t.current_char = some 't' := by
      unfold Tokenizer.current_char
      rw [← hr]
      rfl
    simp only [Json.step, hc]
    rw [if_neg (by decide), if_neg (by decide), if_neg (by decide), if_neg (by decide),
      if_neg (by decide), if_neg (by decide), if_neg (by decide), if_pos h0, if_pos hpre]
  · intro t c hc m1 m2 m3 m4 m5 m6 m7 m8 hne
    simp only [Json.step, hc]
    rw [if_neg m1, if_neg m2, if_neg (not_or.mpr ⟨m3, m4⟩), if_neg m5, if_neg m6,
      if_neg m7, if_neg m8, if_neg hne]

theorem claim_C10_json_literals_witness :
    ((Tokenizer.new ("true,".toList) : Tokenizer Json.JState).current_token = []) ∧
    ((Tokenizer.new ("true,".toList) : Tokenizer Json.JState).starts_with
      ("true".toList) = true) ∧
    Json.step Json.JState.initial_state (Tokenizer.new ("true,".toList)) =
      (some Json.JState.initial_state,
        (Tokenizer.new ("true,".toList) : Tokenizer Json.JState).tokenize_next 4
          Category.Boolean) :=
  ⟨rfl, by decide, claim_C10_json_literals.2.2.1 _ rfl (by decide)⟩

end Claims

end Luthor
